import Mathlib

/-!
Verification of the bread-scheme reader and printer.

This file gives a shallow embedding of the S-expression reader
(`src/parser.rs`), the byte source with a two-byte pushback buffer
(`src/input.rs` and the copy inlined in `src/parser.rs`), the printer
(`src/printer.rs`) and the `Display` implementation (`write_cons` in
`src/types.rs`).

Modelling conventions:
- a byte is a `Nat` (the reader compares raw `u8` values);
- `Handle` equality in the source is structural equality of the referenced
  `Object`s, and the reader never exercises mutation, so `Object` is a plain
  inductive tree here;
- every `panic!`, failed `assert!` or `unwrap` on `None` is modelled as the
  result `none`: `none` is the embedding's fatal-abort marker, distinct from
  every successful `some` result;
- the reader's `loop`, which interleaves recursion with pushback, is given a
  fuel parameter (first argument of `run`); `run 0 _ _ = none` means the fuel
  ran out, and theorems quantify over sufficient fuel;
- `i64` arithmetic (which wraps in release builds) is modelled on `Int` with
  an explicit reduction `wrap64` into the interval `[-2^63, 2^63)`;
- `String::from_utf8` is modelled by the executable validity check
  `utf8Valid` on the byte list together with keeping the bytes themselves.
-/

/-- Object mirrors the tagged union `Object` of `src/types.rs`:
`Empty` (the empty list, printed `()`), cons pairs, symbols, signed 64-bit
integers, string literals and the end-of-input sentinel.  Symbol and string
payloads are kept as their byte lists. -/
inductive Object where
  | Empty : Object
  | Cons : Object → Object → Object
  | Symbol : List Nat → Object
  | Int64 : Int → Object
  | String : List Nat → Object
  | Eof : Object
deriving DecidableEq

/-- Input mirrors `Input` of `src/input.rs`: a pushback buffer of capacity
two (most recently pushed byte first, `buf[0]` is the list head) in front of
the remaining byte stream. -/
structure Input where
  buf : List Nat
  stream : List Nat
deriving DecidableEq

/-- Model of `Input::get`: take the most recently pushed-back byte if any,
otherwise the next stream byte; `none` as first component is end of stream.
The underlying I/O failure branch (a panic on errors other than
`UnexpectedEof`) cannot arise for a pure list stream. -/
def Input.get : Input → Option Nat × Input
  | ⟨c :: rest, s⟩ => (some c, ⟨rest, s⟩)
  | ⟨[], c :: rest⟩ => (some c, ⟨[], rest⟩)
  | ⟨[], []⟩ => (none, ⟨[], []⟩)

/-- Model of `Input::push`: the source asserts `buffered < buf.len()` (with
`buf.len() = 2`) and panics with message
`Pushing byte onto input with no space.` otherwise; the panic is modelled as
`none`.  On success the byte becomes the next one `get` returns. -/
def Input.push (i : Input) (byte : Nat) : Option Input :=
  if 2 ≤ i.buf.length then none else some ⟨byte :: i.buf, i.stream⟩

/-- Model of `is_symbol_char` of `src/parser.rs`: letters, digits, and the
punctuation set. -/
def is_symbol_char (c : Nat) : Bool :=
  (97 ≤ c && c ≤ 122) || (65 ≤ c && c ≤ 90) || (48 ≤ c && c ≤ 57) ||
  c == 33 || c == 36 || c == 37 || c == 38 || c == 42 || c == 43 ||
  c == 45 || c == 46 || c == 47 || c == 58 || c == 60 || c == 61 ||
  c == 62 || c == 63 || c == 64 || c == 94 || c == 95 || c == 126

/-- Helper for `utf8Valid`: a UTF-8 continuation byte is in `[0x80, 0xBF]`. -/
def isCont (c : Nat) : Bool := 128 ≤ c && c ≤ 191

/-- Model of the validity check performed by `String::from_utf8` (standard
UTF-8 well-formedness over the byte list; on failure the source panics,
modelled as `none` at the call sites). -/
def utf8Valid : List Nat → Bool
  | [] => true
  | c :: rest =>
    if c ≤ 127 then utf8Valid rest
    else if 194 ≤ c && c ≤ 223 then
      match rest with
      | c1 :: r => isCont c1 && utf8Valid r
      | [] => false
    else if c == 224 then
      match rest with
      | c1 :: c2 :: r => (160 ≤ c1 && c1 ≤ 191) && isCont c2 && utf8Valid r
      | _ => false
    else if (225 ≤ c && c ≤ 236) || c == 238 || c == 239 then
      match rest with
      | c1 :: c2 :: r => isCont c1 && isCont c2 && utf8Valid r
      | _ => false
    else if c == 237 then
      match rest with
      | c1 :: c2 :: r => (128 ≤ c1 && c1 ≤ 159) && isCont c2 && utf8Valid r
      | _ => false
    else if c == 240 then
      match rest with
      | c1 :: c2 :: c3 :: r =>
        (144 ≤ c1 && c1 ≤ 191) && isCont c2 && isCont c3 && utf8Valid r
      | _ => false
    else if 241 ≤ c && c ≤ 243 then
      match rest with
      | c1 :: c2 :: c3 :: r => isCont c1 && isCont c2 && isCont c3 && utf8Valid r
      | _ => false
    else if c == 244 then
      match rest with
      | c1 :: c2 :: c3 :: r =>
        (128 ≤ c1 && c1 ≤ 143) && isCont c2 && isCont c3 && utf8Valid r
      | _ => false
    else false

/-- Reduction of an integer into the value range of `i64`, `[-2^63, 2^63)`;
this is the wrapping semantics of Rust release-mode `i64` arithmetic. -/
def wrap64 (i : Int) : Int := (i + 2 ^ 63) % 2 ^ 64 - 2 ^ 63

/-- Model of `make_list` of `src/parser.rs`.  The source reverses the
accumulator, takes the last element with `iter.next().unwrap()` (a panic on
the empty vector, modelled as `none`), returns `Nil` when nothing remains
(the singleton case: the element taken first is discarded), and otherwise
right-folds `Handle::new_cons` over the earlier elements. -/
def make_list (vec : List Object) : Option Object :=
  match vec.reverse with
  | [] => none
  | [_] => some .Empty
  | last :: e :: rest =>
    some (rest.foldl (fun prev e2 => Object.Cons e2 prev) (Object.Cons e last))

/-- Model of `make_symbol` of `src/parser.rs`: the bare-dot accumulator is
rejected by an `assert!` (modelled `none`), then the bytes must pass the
`String::from_utf8` check. -/
def make_symbol (vec : List Nat) : Option Object :=
  if vec = [46] then none
  else if utf8Valid vec then some (.Symbol vec) else none

/-- Model of `make_int` of `src/parser.rs`: the first byte decides the sign,
an explicit `+`/`-` is stripped, the digits are folded with
`i = i * 10 + (c - b'0')` in wrapping `i64` arithmetic, and a negative sign
multiplies by `-1` (also wrapping).  The source indexes `v[0]`, a panic on an
empty slice, modelled as `none`; its callers always pass a non-empty
accumulator whose post-sign bytes are ASCII digits, where the `u8`
subtraction `c - b'0'` agrees with the integer subtraction used here. -/
def make_int (v : List Nat) : Option Object :=
  match v with
  | [] => none
  | c :: _ =>
    let ds := if c = 45 ∨ c = 43 then v.tail else v
    let i := ds.foldl (fun a d => wrap64 (wrap64 (a * 10) + ((d : Int) - 48))) 0
    some (.Int64 (if c = 45 then wrap64 (-i) else i))

/-- Model of `make_string` of `src/parser.rs`: the accumulated bytes must
pass the `String::from_utf8` check. -/
def make_string (vec : List Nat) : Option Object :=
  if utf8Valid vec then some (.String vec) else none

/-- ParseState mirrors the `ParseState` enum of `src/parser.rs`. -/
inductive ParseState where
  | None : ParseState
  | List : List Object → ParseState
  | MaybeDot : List Object → ParseState
  | ListEnd : List Object → ParseState
  | Int : List Nat → ParseState
  | Symbol : List Nat → ParseState
  | String : List Nat → ParseState

/-- Byte list spelling `quote`, for the quote-shorthand expansion. -/
def quoteBytes : List Nat := [113, 117, 111, 116, 101]

/-- Model of `read` of `src/parser.rs`.  The first argument is fuel for the
`loop` (each iteration and each recursive `read` call consumes one unit;
`run 0 _ _ = none` is fuel exhaustion).  Every arm mirrors the corresponding
match arm of the source, in source order for the guarded cases; all
`panic!`/`assert!` aborts are `none`.  A successful parse returns the value
together with the input state left behind (including any pushed-back
delimiter). -/
def run : Nat → ParseState → Input → Option (Object × Input)
  | 0, _, _ => none
  | n + 1, st, inp =>
    match st, Input.get inp with
    | .None, (some c, i) =>
      if c = 32 ∨ c = 9 ∨ c = 10 then run n .None i
      else if c = 40 then run n (.List []) i
      else if c = 34 then run n (.String []) i
      else if c = 39 then
        match run n .None i with
        | some (q, i2) =>
          (make_list [.Symbol quoteBytes, q, .Empty]).map (fun r => (r, i2))
        | none => none
      else if c = 41 then none
      else if (48 ≤ c ∧ c ≤ 57) ∨ c = 45 ∨ c = 43 then run n (.Int [c]) i
      else if is_symbol_char c then run n (.Symbol [c]) i
      else none
    | .None, (none, i) => some (.Eof, i)
    | .List v, (some c, i) =>
      if c = 10 ∨ c = 32 then run n (.List v) i
      else if c = 41 then (make_list (v ++ [.Empty])).map (fun r => (r, i))
      else if c = 46 then run n (.MaybeDot v) i
      else
        match Input.push i c with
        | some i2 =>
          match run n .None i2 with
          | some (e, i3) => run n (.List (v ++ [e])) i3
          | none => none
        | none => none
    | .List _, (none, _) => none
    | .MaybeDot v, (some c, i) =>
      if c = 32 ∨ c = 9 ∨ c = 10 then
        if v = [] then none
        else
          match run n .None i with
          | some (e, i2) => run n (.ListEnd (v ++ [e])) i2
          | none => none
      else
        match Input.push i c with
        | some i2 =>
          match Input.push i2 46 with
          | some i3 =>
            match run n .None i3 with
            | some (e, i4) => run n (.List (v ++ [e])) i4
            | none => none
          | none => none
        | none => none
    | .MaybeDot _, (none, _) => none
    | .ListEnd v, (some c, i) =>
      if c = 32 ∨ c = 9 ∨ c = 10 then run n (.ListEnd v) i
      else if c = 41 then (make_list v).map (fun r => (r, i))
      else none
    | .ListEnd _, (none, _) => none
    | .Int v, (some c, i) =>
      if c = 32 ∨ c = 9 ∨ c = 10 ∨ c = 40 ∨ c = 41 then
        match Input.push i c with
        | some i2 => (make_int v).map (fun r => (r, i2))
        | none => none
      else if 48 ≤ c ∧ c ≤ 57 then run n (.Int (v ++ [c])) i
      else if is_symbol_char c then run n (.Symbol (v ++ [c])) i
      else none
    | .Int v, (none, i) => (make_int v).map (fun r => (r, i))
    | .Symbol v, (some c, i) =>
      if c = 32 ∨ c = 9 ∨ c = 10 ∨ c = 40 ∨ c = 41 then
        match Input.push i c with
        | some i2 => (make_symbol v).map (fun r => (r, i2))
        | none => none
      else if is_symbol_char c then run n (.Symbol (v ++ [c])) i
      else none
    | .Symbol v, (none, i) => (make_symbol v).map (fun r => (r, i))
    | .String v, (some c, i) =>
      if c = 34 then (make_string v).map (fun r => (r, i))
      else if c = 92 then run n (.String v) i
      else run n (.String (v ++ [c])) i
    | .String _, (none, _) => none

/-- Restatement of the loop body of `run` with the result of `Input.get`
abstracted as parameters: `runStep n st c i` is the value of one iteration
of `run (n + 1)` in state `st` when `get` returned byte `c` leaving input
`i`.  This definition is not recursive (it calls `run` at the smaller fuel
`n`) and exists purely so that single loop iterations can be reasoned about
one small arm at a time; `run_succ` below proves it faithful to `run`. -/
def runStep (n : Nat) (st : ParseState) (c? : Option Nat) (i : Input) :
    Option (Object × Input) :=
  match st, c? with
  | .None, some c =>
    if c = 32 ∨ c = 9 ∨ c = 10 then run n .None i
    else if c = 40 then run n (.List []) i
    else if c = 34 then run n (.String []) i
    else if c = 39 then
      match run n .None i with
      | some (q, i2) =>
        (make_list [.Symbol quoteBytes, q, .Empty]).map (fun r => (r, i2))
      | none => none
    else if c = 41 then none
    else if (48 ≤ c ∧ c ≤ 57) ∨ c = 45 ∨ c = 43 then run n (.Int [c]) i
    else if is_symbol_char c then run n (.Symbol [c]) i
    else none
  | .None, none => some (.Eof, i)
  | .List v, some c =>
    if c = 10 ∨ c = 32 then run n (.List v) i
    else if c = 41 then (make_list (v ++ [.Empty])).map (fun r => (r, i))
    else if c = 46 then run n (.MaybeDot v) i
    else
      match Input.push i c with
      | some i2 =>
        match run n .None i2 with
        | some (e, i3) => run n (.List (v ++ [e])) i3
        | none => none
      | none => none
  | .List _, none => none
  | .MaybeDot v, some c =>
    if c = 32 ∨ c = 9 ∨ c = 10 then
      if v = [] then none
      else
        match run n .None i with
        | some (e, i2) => run n (.ListEnd (v ++ [e])) i2
        | none => none
    else
      match Input.push i c with
      | some i2 =>
        match Input.push i2 46 with
        | some i3 =>
          match run n .None i3 with
          | some (e, i4) => run n (.List (v ++ [e])) i4
          | none => none
        | none => none
      | none => none
  | .MaybeDot _, none => none
  | .ListEnd v, some c =>
    if c = 32 ∨ c = 9 ∨ c = 10 then run n (.ListEnd v) i
    else if c = 41 then (make_list v).map (fun r => (r, i))
    else none
  | .ListEnd _, none => none
  | .Int v, some c =>
    if c = 32 ∨ c = 9 ∨ c = 10 ∨ c = 40 ∨ c = 41 then
      match Input.push i c with
      | some i2 => (make_int v).map (fun r => (r, i2))
      | none => none
    else if 48 ≤ c ∧ c ≤ 57 then run n (.Int (v ++ [c])) i
    else if is_symbol_char c then run n (.Symbol (v ++ [c])) i
    else none
  | .Int v, none => (make_int v).map (fun r => (r, i))
  | .Symbol v, some c =>
    if c = 32 ∨ c = 9 ∨ c = 10 ∨ c = 40 ∨ c = 41 then
      match Input.push i c with
      | some i2 => (make_symbol v).map (fun r => (r, i2))
      | none => none
    else if is_symbol_char c then run n (.Symbol (v ++ [c])) i
    else none
  | .Symbol v, none => (make_symbol v).map (fun r => (r, i))
  | .String v, some c =>
    if c = 34 then (make_string v).map (fun r => (r, i))
    else if c = 92 then run n (.String v) i
    else run n (.String (v ++ [c])) i
  | .String _, none => none

/-- Reading one value from a fresh byte stream (empty pushback buffer,
initial state `ParseState::None`), with the given fuel. -/
def readBytes (fuel : Nat) (bytes : List Nat) : Option (Object × Input) :=
  run fuel .None ⟨[], bytes⟩

/-- Digits of `n` in base 10, least significant first, as ASCII bytes; the
first argument is structural fuel (any bound on the digit count works, and
`natToBytes` passes `n` itself). -/
def natToDigitsAux : Nat → Nat → List Nat
  | 0, _ => []
  | _ + 1, 0 => []
  | fuel + 1, n => (n % 10 + 48) :: natToDigitsAux fuel (n / 10)

/-- Decimal ASCII spelling of a natural number, as Rust `Display` prints
it. -/
def natToBytes (n : Nat) : List Nat :=
  if n = 0 then [48] else (natToDigitsAux n n).reverse

/-- Decimal ASCII spelling of an `i64` value, as Rust `Display` prints it:
a leading `-` for negative values, then the digits of the magnitude. -/
def intToBytes (i : Int) : List Nat :=
  if i < 0 then 45 :: natToBytes i.natAbs else natToBytes i.toNat

/-- Final non-`Cons` object of a rest chain (the `next` left over by the
printer loops of `src/printer.rs` and `src/types.rs`). -/
def chainEnd : Object → Object
  | .Cons _ d => chainEnd d
  | v => v

mutual
/-- Model of `print` of `src/printer.rs`, emitting the byte list the Rust
code writes to stdout: `()` for the empty list, `print_cons` for pairs,
symbols verbatim, integers in decimal, strings requoted with no escaping,
nothing for `Eof`.  The `Cons` arm inlines `print_cons`: after the walked
elements, when the final `next` is not `Nil`, the source prints a literal
dot segment followed by `print(cdr)` where `cdr` is the unchanged first rest
parameter (the loop rebinds a shadowing local, not the parameter) — this is
modelled faithfully by `32 :: 46 :: 32 :: print d`. -/
def print : Object → List Nat
  | .Empty => [40, 41]
  | .Cons a d =>
    40 :: (print a ++ printRest d ++
      (match chainEnd d with
       | .Empty => []
       | _ => 32 :: 46 :: 32 :: print d) ++ [41])
  | .Symbol s => s
  | .Int64 i => intToBytes i
  | .String s => 34 :: (s ++ [34])
  | .Eof => []

/-- Elements emitted by the `while let Cons` walk of `print_cons`: a space
then the element, for as long as the chain continues as pairs. -/
def printRest : Object → List Nat
  | .Cons a d => 32 :: (print a ++ printRest d)
  | _ => []
end

/-- Display text of a non-`Cons` object, per the `Display` impl in
`src/types.rs` (`Eof` prints `#<eof>` there).  The `Cons` arm is arbitrary:
`displayDot` only ever receives the non-`Cons` end of a chain. -/
def displayAtom : Object → List Nat
  | .Empty => [40, 41]
  | .Cons _ _ => []
  | .Symbol s => s
  | .Int64 i => intToBytes i
  | .String s => 34 :: (s ++ [34])
  | .Eof => [35, 60, 101, 111, 102, 62]

/-- Dotted-tail segment of `write_cons` in `src/types.rs`: nothing when the
final `next` is `Nil`, otherwise a literal dot segment followed by that
final object itself (which is never a `Cons`, the walk having stopped). -/
def displayDot (e : Object) : List Nat :=
  match e with
  | .Empty => []
  | e2 => 32 :: 46 :: 32 :: displayAtom e2

mutual
/-- Model of the `Display` implementation of `src/types.rs` (`fmt` together
with `write_cons`): identical to `print` except that `Eof` renders as
`#<eof>` and that after the dot `write_cons` prints the walked-to final
object `next`, not the original first rest. -/
def displayObj : Object → List Nat
  | .Cons a d => 40 :: (displayObj a ++ displayRest d ++ displayDot (chainEnd d) ++ [41])
  | v => displayAtom v

/-- Elements emitted by the `while let Cons` walk of `write_cons`. -/
def displayRest : Object → List Nat
  | .Cons a d => 32 :: (displayObj a ++ displayRest d)
  | _ => []
end

/-- True on `Cons` values. -/
def Object.isCons : Object → Bool
  | .Cons _ _ => true
  | _ => false

/-- True when the value contains no `Eof` sentinel anywhere.  The reader
produces an embedded `Eof` only when the quote shorthand hits end of stream
(the recursive `read` returns the sentinel and it is wrapped as a list
element). -/
def noEof : Object → Bool
  | .Eof => false
  | .Cons a d => noEof a && noEof d
  | _ => true

/-- True when no cons node in the value starts an improper chain of at least
two pairs: at each `Cons a d`, either `d` is not itself a pair, or the chain
through `d` ends in `Empty`.  On chains of length at least two with a
non-`Empty` end, `print_cons` of `src/printer.rs` prints the whole original
rest chain after the dot instead of the final atom, which breaks the
read-print round trip; `dotOK` carves out the unaffected values. -/
def dotOK : Object → Bool
  | .Cons a d => dotOK a && dotOK d && (!d.isCons || decide (chainEnd d = .Empty))
  | _ => true

/-- Values on which `print` of `src/printer.rs` is faithful: no embedded
`Eof` and no improper chain of length at least two. -/
def goodVal (v : Object) : Bool := noEof v && dotOK v

/-- Well-formedness of symbol payloads as the reader produces them:
non-empty, every byte a symbol char, not the bare dot, and if the first byte
could have started an integer token (digit or sign) then some later byte is
a non-digit (otherwise the token would have been returned as an integer). -/
def symbolOK (s : List Nat) : Prop :=
  s ≠ [] ∧ (∀ c ∈ s, is_symbol_char c = true) ∧ s ≠ [46] ∧
    (((48 ≤ s.headD 0 ∧ s.headD 0 ≤ 57) ∨ s.headD 0 = 45 ∨ s.headD 0 = 43) →
      ∃ c ∈ s.tail, ¬(48 ≤ c ∧ c ≤ 57))

/-- Invariant of values the reader can return: integers lie in the `i64`
range, symbols satisfy `symbolOK`, string payloads never contain a quote or
backslash byte (the `String` state strips every backslash and a quote always
terminates) and pass the UTF-8 check, and pairs are built from such
values.  `Eof` is included: the sentinel itself, and quote-expansion
elements, can carry it. -/
inductive WF : Object → Prop where
  | empty : WF .Empty
  | eof : WF .Eof
  | int : ∀ i : Int, -(2 ^ 63) ≤ i → i < 2 ^ 63 → WF (.Int64 i)
  | symbol : ∀ s, symbolOK s → WF (.Symbol s)
  | string : ∀ s, (∀ c ∈ s, c ≠ 34 ∧ c ≠ 92) → utf8Valid s = true → WF (.String s)
  | cons : ∀ a d, WF a → WF d → WF (.Cons a d)

/-- Invariant of the `Int` accumulator: non-empty, first byte a digit or an
explicit sign, later bytes digits. -/
def IntAcc (v : List Nat) : Prop :=
  v ≠ [] ∧ ((48 ≤ v.headD 0 ∧ v.headD 0 ≤ 57) ∨ v.headD 0 = 45 ∨ v.headD 0 = 43) ∧
    ∀ c ∈ v.tail, 48 ≤ c ∧ c ≤ 57

/-- Invariant of the `Symbol` accumulator: non-empty, all symbol chars, and
when the first byte is a digit or sign some later byte is a non-digit (the
state is only entered from `Int` on such a byte, or from `Start` on a
non-numeric first byte). -/
def SymAcc (v : List Nat) : Prop :=
  v ≠ [] ∧ (∀ c ∈ v, is_symbol_char c = true) ∧
    (((48 ≤ v.headD 0 ∧ v.headD 0 ≤ 57) ∨ v.headD 0 = 45 ∨ v.headD 0 = 43) →
      ∃ c ∈ v.tail, ¬(48 ≤ c ∧ c ≤ 57))

/-- State invariant of the reader loop, used to show every value `run`
returns satisfies `WF`. -/
def StWF : ParseState → Prop
  | .None => True
  | .List v => ∀ x ∈ v, WF x
  | .MaybeDot v => ∀ x ∈ v, WF x
  | .ListEnd v => ∀ x ∈ v, WF x
  | .Int v => IntAcc v
  | .Symbol v => SymAcc v
  | .String v => ∀ c ∈ v, c ≠ 34 ∧ c ≠ 92

/-- Continuation constraint for token-reading lemmas: the printed text
following an atom is either exhausted or continues with a space or a closing
parenthesis, the delimiters the printer actually emits after elements. -/
def tailOK (s : List Nat) : Prop :=
  match s with
  | [] => True
  | c :: _ => c = 32 ∨ c = 41

/-- Input state after an atom token is read: at end of input nothing
remains; otherwise the delimiter that terminated the token has been pushed
back. -/
def atomRem (s : List Nat) : Input :=
  match s with
  | [] => ⟨[], []⟩
  | c :: s2 => ⟨[c], s2⟩

/-- True on the two token-like values (integers and symbols) whose reading
ends by consuming and pushing back the following delimiter. -/
def isTok : Object → Bool
  | .Int64 _ => true
  | .Symbol _ => true
  | _ => false

/-- Input state left after reading the printed form of `v` followed by
`s`. -/
def valRem (v : Object) (s : List Nat) : Input :=
  if isTok v then atomRem s else ⟨[], s⟩

/-- Continuation constraint for reading the printed form of `v`: only
token-like values constrain what may follow. -/
def valTailOK (v : Object) (s : List Nat) : Prop := isTok v = true → tailOK s

/-- Elements of a rest chain, ending with the final non-cons object. -/
def chainToList : Object → List Object
  | .Cons b d => b :: chainToList d
  | e => [e]

/-- Value of a big-endian list of ASCII digit bytes. -/
def digitsVal (l : List Nat) : Nat := l.foldl (fun a c => a * 10 + (c - 48)) 0

/-- True when every byte is an ASCII digit. -/
def allDigits (l : List Nat) : Bool := l.all (fun c => 48 ≤ c && c ≤ 57)

/-- Plain (non-wrapping) integer value of a digit-byte list from the
accumulator `a`; reference fold for reasoning about `make_int`. -/
def pfold (l : List Nat) (a : Int) : Int :=
  l.foldl (fun x d => x * 10 + ((d : Int) - 48)) a

/-- Wrapping fold of `make_int`, starting from accumulator `a`. -/
def wfoldInt (l : List Nat) (a : Int) : Int :=
  l.foldl (fun x d => wrap64 (wrap64 (x * 10) + ((d : Int) - 48))) a

theorem sym_char_facts {c : Nat} (h : is_symbol_char c = true) :
    c ≠ 32 ∧ c ≠ 9 ∧ c ≠ 10 ∧ c ≠ 40 ∧ c ≠ 41 ∧ c ≠ 34 ∧ c ≠ 39 ∧ c ≠ 92 ∧ c ≤ 127 := by
  simp only [is_symbol_char, Bool.or_eq_true, Bool.and_eq_true, decide_eq_true_eq,
    beq_iff_eq] at h
  omega

theorem digit_sym_char {c : Nat} (h : 48 ≤ c ∧ c ≤ 57) : is_symbol_char c = true := by
  simp only [is_symbol_char, Bool.or_eq_true, Bool.and_eq_true, decide_eq_true_eq,
    beq_iff_eq]
  omega

theorem sign_sym_char {c : Nat} (h : c = 45 ∨ c = 43) : is_symbol_char c = true := by
  simp only [is_symbol_char, Bool.or_eq_true, Bool.and_eq_true, decide_eq_true_eq,
    beq_iff_eq]
  omega

theorem utf8Valid_cons_eq (c : Nat) (rest : List Nat) :
    utf8Valid (c :: rest) =
      (if c ≤ 127 then utf8Valid rest
       else if 194 ≤ c && c ≤ 223 then
        match rest with
        | c1 :: r => isCont c1 && utf8Valid r
        | [] => false
       else if c == 224 then
        match rest with
        | c1 :: c2 :: r => (160 ≤ c1 && c1 ≤ 191) && isCont c2 && utf8Valid r
        | _ => false
       else if (225 ≤ c && c ≤ 236) || c == 238 || c == 239 then
        match rest with
        | c1 :: c2 :: r => isCont c1 && isCont c2 && utf8Valid r
        | _ => false
       else if c == 237 then
        match rest with
        | c1 :: c2 :: r => (128 ≤ c1 && c1 ≤ 159) && isCont c2 && utf8Valid r
        | _ => false
       else if c == 240 then
        match rest with
        | c1 :: c2 :: c3 :: r =>
          (144 ≤ c1 && c1 ≤ 191) && isCont c2 && isCont c3 && utf8Valid r
        | _ => false
       else if 241 ≤ c && c ≤ 243 then
        match rest with
        | c1 :: c2 :: c3 :: r => isCont c1 && isCont c2 && isCont c3 && utf8Valid r
        | _ => false
       else if c == 244 then
        match rest with
        | c1 :: c2 :: c3 :: r =>
          (128 ≤ c1 && c1 ≤ 143) && isCont c2 && isCont c3 && utf8Valid r
        | _ => false
       else false) := by
  cases rest with
  | nil => rfl
  | cons c1 r1 =>
    cases r1 with
    | nil => rfl
    | cons c2 r2 =>
      cases r2 with
      | nil => rfl
      | cons c3 r3 => rfl

theorem utf8_cons_ascii {c : Nat} (h : c ≤ 127) (r : List Nat) :
    utf8Valid (c :: r) = utf8Valid r := by
  rw [utf8Valid_cons_eq, if_pos h]

theorem ascii_utf8Valid {s : List Nat} (h : ∀ c ∈ s, c ≤ 127) : utf8Valid s = true := by
  induction s with
  | nil => rfl
  | cons c r ih =>
    rw [utf8_cons_ascii (h c (by simp))]
    exact ih fun x hx => h x (by simp [hx])

theorem make_symbol_eq {s : List Nat} (h1 : s ≠ [46])
    (h2 : ∀ c ∈ s, is_symbol_char c = true) : make_symbol s = some (.Symbol s) := by
  unfold make_symbol
  rw [if_neg h1, if_pos (ascii_utf8Valid fun c hc => (sym_char_facts (h2 c hc)).2.2.2.2.2.2.2.2)]

theorem make_list_app (es : List Object) (x t : Object) :
    make_list (es ++ [x, t]) = some (es.foldr Object.Cons (Object.Cons x t)) := by
  unfold make_list
  rw [show (es ++ [x, t]).reverse = t :: x :: es.reverse by simp]
  simp [List.foldl_reverse]

theorem make_list_cons_ge2 (e : Object) (l : List Object) (h : 2 ≤ l.length) :
    make_list (e :: l) = (make_list l).map (fun r => Object.Cons e r) := by
  obtain ⟨es, x, t, rfl⟩ : ∃ es x t, l = es ++ [x, t] := by
    cases hr : l.reverse with
    | nil =>
      exfalso
      have : l = [] := by simpa using congrArg List.reverse hr
      simp [this] at h
    | cons t r2 =>
      cases r2 with
      | nil =>
        exfalso
        have : l = [t] := by simpa using congrArg List.reverse hr
        simp [this] at h
      | cons x es =>
        refine ⟨es.reverse, x, t, ?_⟩
        have : l = (t :: x :: es).reverse := by simpa using congrArg List.reverse hr
        simpa using this
  rw [show e :: (es ++ [x, t]) = (e :: es) ++ [x, t] from rfl, make_list_app, make_list_app]
  simp

theorem wrap64_range (i : Int) : -(2 ^ 63) ≤ wrap64 i ∧ wrap64 i < 2 ^ 63 := by
  unfold wrap64
  have h1 : 0 ≤ (i + 2 ^ 63) % 2 ^ 64 := Int.emod_nonneg _ (by norm_num)
  have h2 : (i + 2 ^ 63) % 2 ^ 64 < 2 ^ 64 := Int.emod_lt_of_pos _ (by norm_num)
  omega

theorem wrap64_id {i : Int} (h1 : -(2 ^ 63) ≤ i) (h2 : i < 2 ^ 63) : wrap64 i = i := by
  unfold wrap64
  rw [Int.emod_eq_of_lt (by omega) (by omega)]
  omega

theorem run_shift (n : Nat) (st : ParseState) (c : Nat) (s : List Nat) :
    run n st ⟨[c], s⟩ = run n st ⟨[], c :: s⟩ := by
  cases n with
  | zero => rfl
  | succ n => rfl

theorem run_succ (n : Nat) (st : ParseState) (inp : Input) :
    run (n + 1) st inp = runStep n st (Input.get inp).1 (Input.get inp).2 := by
  cases inp with
  | mk buf s =>
    cases buf with
    | cons b bt => cases st <;> rfl
    | nil =>
      cases s with
      | nil => cases st <;> rfl
      | cons c s2 => cases st <;> rfl

theorem run_cons (n : Nat) (st : ParseState) (c : Nat) (s : List Nat) :
    run (n + 1) st ⟨[], c :: s⟩ = runStep n st (some c) ⟨[], s⟩ :=
  run_succ n st ⟨[], c :: s⟩

theorem run_buf (n : Nat) (st : ParseState) (c : Nat) (buf s : List Nat) :
    run (n + 1) st ⟨c :: buf, s⟩ = runStep n st (some c) ⟨buf, s⟩ :=
  run_succ n st ⟨c :: buf, s⟩

theorem run_end (n : Nat) (st : ParseState) :
    run (n + 1) st ⟨[], []⟩ = runStep n st none ⟨[], []⟩ :=
  run_succ n st ⟨[], []⟩

theorem runStep_none_some (n : Nat) (c : Nat) (i : Input) :
    runStep n .None (some c) i =
      (if c = 32 ∨ c = 9 ∨ c = 10 then run n .None i
       else if c = 40 then run n (.List []) i
       else if c = 34 then run n (.String []) i
       else if c = 39 then
         match run n .None i with
         | some (q, i2) =>
           (make_list [.Symbol quoteBytes, q, .Empty]).map (fun r => (r, i2))
         | none => none
       else if c = 41 then none
       else if (48 ≤ c ∧ c ≤ 57) ∨ c = 45 ∨ c = 43 then run n (.Int [c]) i
       else if is_symbol_char c then run n (.Symbol [c]) i
       else none) := rfl

theorem runStep_none_end (n : Nat) (i : Input) :
    runStep n .None none i = some (.Eof, i) := rfl

theorem runStep_list_some (n : Nat) (v : List Object) (c : Nat) (i : Input) :
    runStep n (.List v) (some c) i =
      (if c = 10 ∨ c = 32 then run n (.List v) i
       else if c = 41 then (make_list (v ++ [.Empty])).map (fun r => (r, i))
       else if c = 46 then run n (.MaybeDot v) i
       else
         match Input.push i c with
         | some i2 =>
           match run n .None i2 with
           | some (e, i3) => run n (.List (v ++ [e])) i3
           | none => none
         | none => none) := rfl

theorem runStep_list_end (n : Nat) (v : List Object) (i : Input) :
    runStep n (.List v) none i = none := rfl

theorem runStep_dot_some (n : Nat) (v : List Object) (c : Nat) (i : Input) :
    runStep n (.MaybeDot v) (some c) i =
      (if c = 32 ∨ c = 9 ∨ c = 10 then
        if v = [] then none
        else
          match run n .None i with
          | some (e, i2) => run n (.ListEnd (v ++ [e])) i2
          | none => none
       else
         match Input.push i c with
         | some i2 =>
           match Input.push i2 46 with
           | some i3 =>
             match run n .None i3 with
             | some (e, i4) => run n (.List (v ++ [e])) i4
             | none => none
           | none => none
         | none => none) := rfl

theorem runStep_dot_end (n : Nat) (v : List Object) (i : Input) :
    runStep n (.MaybeDot v) none i = none := rfl

theorem runStep_listend_some (n : Nat) (v : List Object) (c : Nat) (i : Input) :
    runStep n (.ListEnd v) (some c) i =
      (if c = 32 ∨ c = 9 ∨ c = 10 then run n (.ListEnd v) i
       else if c = 41 then (make_list v).map (fun r => (r, i))
       else none) := rfl

theorem runStep_listend_end (n : Nat) (v : List Object) (i : Input) :
    runStep n (.ListEnd v) none i = none := rfl

theorem runStep_int_some (n : Nat) (v : List Nat) (c : Nat) (i : Input) :
    runStep n (.Int v) (some c) i =
      (if c = 32 ∨ c = 9 ∨ c = 10 ∨ c = 40 ∨ c = 41 then
         match Input.push i c with
         | some i2 => (make_int v).map (fun r => (r, i2))
         | none => none
       else if 48 ≤ c ∧ c ≤ 57 then run n (.Int (v ++ [c])) i
       else if is_symbol_char c then run n (.Symbol (v ++ [c])) i
       else none) := rfl

theorem runStep_int_end (n : Nat) (v : List Nat) (i : Input) :
    runStep n (.Int v) none i = (make_int v).map (fun r => (r, i)) := rfl

theorem runStep_sym_some (n : Nat) (v : List Nat) (c : Nat) (i : Input) :
    runStep n (.Symbol v) (some c) i =
      (if c = 32 ∨ c = 9 ∨ c = 10 ∨ c = 40 ∨ c = 41 then
         match Input.push i c with
         | some i2 => (make_symbol v).map (fun r => (r, i2))
         | none => none
       else if is_symbol_char c then run n (.Symbol (v ++ [c])) i
       else none) := rfl

theorem runStep_sym_end (n : Nat) (v : List Nat) (i : Input) :
    runStep n (.Symbol v) none i = (make_symbol v).map (fun r => (r, i)) := rfl

theorem runStep_string_some (n : Nat) (v : List Nat) (c : Nat) (i : Input) :
    runStep n (.String v) (some c) i =
      (if c = 34 then (make_string v).map (fun r => (r, i))
       else if c = 92 then run n (.String v) i
       else run n (.String (v ++ [c])) i) := rfl

theorem runStep_string_end (n : Nat) (v : List Nat) (i : Input) :
    runStep n (.String v) none i = none := rfl

theorem run_string_append (n : Nat) (v : List Nat) {c : Nat} (s : List Nat)
    (h34 : c ≠ 34) (h92 : c ≠ 92) :
    run (n + 1) (.String v) ⟨[], c :: s⟩ = run n (.String (v ++ [c])) ⟨[], s⟩ := by
  rw [run_cons, runStep_string_some, if_neg h34, if_neg h92]

theorem run_string_backslash (n : Nat) (v : List Nat) (s : List Nat) :
    run (n + 1) (.String v) ⟨[], 92 :: s⟩ = run n (.String v) ⟨[], s⟩ := by
  rw [run_cons, runStep_string_some]
  norm_num

theorem run_string_close (n : Nat) (v : List Nat) (s : List Nat) :
    run (n + 1) (.String v) ⟨[], 34 :: s⟩ =
      (make_string v).map (fun r => (r, (⟨[], s⟩ : Input))) := by
  rw [run_cons, runStep_string_some]
  norm_num

/-- C1 (counterexample): reading the bytes of `"a\"b"` does not keep the
escaped quote: the reader discards the backslash and the following quote
byte then terminates the string, yielding `Text` with content just `a` and
leaving `b"` unconsumed — rather than the claimed `Text` containing the
quote byte literally with the string unterminated at that point. -/
theorem c1_counterexample :
    readBytes 12 [34, 97, 92, 34, 98, 34] = some (.String [97], ⟨[], [98, 34]⟩) ∧
    ¬ (34 ∈ ([97] : List Nat)) := by
  exact ⟨by decide, by decide⟩

/-- C1 (amended): on a backslash the `String` state discards the backslash
and returns to the `String` state, so the following byte is handled by the
ordinary string rules: any byte other than `"` and `\` is appended
literally (and the content must be valid UTF-8, so here an ASCII byte);
a quote after a backslash terminates the string instead.  For every such
byte b, reading `"a\` b `b"` yields `Text` with content `a` b `b`. -/
theorem c1_backslash_amended (b : Nat) (hb : b ≤ 127) (h34 : b ≠ 34) (h92 : b ≠ 92)
    (n : Nat) :
    run (n + 6) .None ⟨[], [34, 97, 92, b, 98, 34]⟩ =
      some (.String [97, b, 98], ⟨[], []⟩) := by
  rw [show n + 6 = (n + 5) + 1 from rfl, run_cons, runStep_none_some]
  norm_num
  rw [show n + 5 = (n + 4) + 1 from rfl,
    run_string_append (n + 4) [] [92, b, 98, 34] (by norm_num) (by norm_num)]
  simp only [List.nil_append, List.cons_append]
  rw [show n + 4 = (n + 3) + 1 from rfl, run_string_backslash]
  rw [show n + 3 = (n + 2) + 1 from rfl, run_string_append (n + 2) [97] [98, 34] h34 h92]
  simp only [List.nil_append, List.cons_append]
  rw [show n + 2 = (n + 1) + 1 from rfl,
    run_string_append (n + 1) [97, b] [34] (by norm_num) (by norm_num)]
  simp only [List.nil_append, List.cons_append]
  rw [run_string_close]
  rw [show make_string [97, b, 98] = some (.String [97, b, 98]) from by
    unfold make_string
    rw [if_pos (ascii_utf8Valid fun c hc => by
      simp only [List.mem_cons, List.not_mem_nil, or_false] at hc
      rcases hc with rfl | rfl | rfl
      · norm_num
      · exact hb
      · norm_num)]]
  rfl

/-- C1 (witness): the amended statement at the concrete byte `x` (120). -/
theorem c1_witness :
    run (6 + 6) .None ⟨[], [34, 97, 92, 120, 98, 34]⟩ =
      some (.String [97, 120, 98], ⟨[], []⟩) :=
  c1_backslash_amended 120 (by norm_num) (by norm_num) (by norm_num) 6

/-- C2 (counterexample): the input `(1 2 . 3)` is accepted, its value
contains no `Text` at all, yet printing it with `print` of
`src/printer.rs` yields `(1 2 . (2 . 3))` (the dotted-tail slip), which
re-reads to a different value: the round trip fails. -/
theorem c2_counterexample :
    readBytes 30 [40, 49, 32, 50, 32, 46, 32, 51, 41] =
      some (.Cons (.Int64 1) (.Cons (.Int64 2) (.Int64 3)), ⟨[], []⟩) ∧
    print (.Cons (.Int64 1) (.Cons (.Int64 2) (.Int64 3))) =
      [40, 49, 32, 50, 32, 46, 32, 40, 50, 32, 46, 32, 51, 41, 41] ∧
    readBytes 40 [40, 49, 32, 50, 32, 46, 32, 40, 50, 32, 46, 32, 51, 41, 41] =
      some (.Cons (.Int64 1) (.Cons (.Int64 2) (.Cons (.Int64 2) (.Int64 3))), ⟨[], []⟩) ∧
    Object.Cons (.Int64 1) (.Cons (.Int64 2) (.Int64 3)) ≠
      .Cons (.Int64 1) (.Cons (.Int64 2) (.Cons (.Int64 2) (.Int64 3))) := by
  refine ⟨by decide, by decide, by decide, by decide⟩

/-- C3 (code bug, evaluated): on `Pair(1, Pair(2, 3))` the `print_cons` of
`src/printer.rs` emits `(1 2 . (2 . 3))` — after the dot it prints the
original first rest chain (its `print(cdr)` uses the unchanged parameter,
not the walked `next`) — while `write_cons` of `src/types.rs` emits the
claimed `(1 2 . 3)` with exactly the final non-pair atom after the dot. -/
theorem c3_printer_dotted_divergence :
    print (.Cons (.Int64 1) (.Cons (.Int64 2) (.Int64 3))) =
      [40, 49, 32, 50, 32, 46, 32, 40, 50, 32, 46, 32, 51, 41, 41] ∧
    displayObj (.Cons (.Int64 1) (.Cons (.Int64 2) (.Int64 3))) =
      [40, 49, 32, 50, 32, 46, 32, 51, 41] := by
  exact ⟨by decide, by decide⟩

/-- C4 (code bug, evaluated): the `List` arm of `read` skips only space and
newline, not tab; a tab before the closing parenthesis is pushed back and
re-read as a value, and that recursive read aborts on the unexpected `)`.
So `read("(1\t)")` is a fatal parse error (`none` here), while the same
input with a space or newline, and a tab between elements, all succeed. -/
theorem c4_list_tab_divergence :
    readBytes 12 [40, 49, 9, 41] = none ∧
    readBytes 12 [40, 49, 32, 41] = some (.Cons (.Int64 1) .Empty, ⟨[], []⟩) ∧
    readBytes 12 [40, 49, 10, 41] = some (.Cons (.Int64 1) .Empty, ⟨[], []⟩) ∧
    readBytes 12 [40, 49, 9, 50, 41] =
      some (.Cons (.Int64 1) (.Cons (.Int64 2) .Empty), ⟨[], []⟩) := by
  refine ⟨by decide, by decide, by decide, by decide⟩

/-- C5 (counterexample): on the empty accumulator `make_list` is not total
and does not return `Nil`: the source hits `iter.next().unwrap()` on `None`
(a panic, the fatal marker `none` here). -/
theorem c5_counterexample :
    make_list ([] : List Object) = none ∧
    make_list ([] : List Object) ≠ some Object.Empty := by
  exact ⟨rfl, by decide⟩

/-- C5 (amended): for an accumulator with at least one element before the
tail, `make_list [e1, ..., en, tail]` is the right fold
`Pair(e1, ... Pair(en, tail))`; a singleton accumulator yields `Nil`
discarding its element; and the empty accumulator is a fatal `unwrap`
panic, not `Nil`. -/
theorem c5_make_list_amended :
    (∀ (es : List Object) (t : Object), es ≠ [] →
      make_list (es ++ [t]) = some (es.foldr Object.Cons t)) ∧
    (∀ t : Object, make_list [t] = some Object.Empty) ∧
    make_list ([] : List Object) = none := by
  refine ⟨?_, fun t => rfl, rfl⟩
  intro es t hne
  cases hr : es.reverse with
  | nil =>
    exact absurd (by simpa using congrArg List.reverse hr) hne
  | cons x es2 =>
    have hes : es = es2.reverse ++ [x] := by
      have : es = (x :: es2).reverse := by simpa using congrArg List.reverse hr
      simpa using this
    subst hes
    rw [show (es2.reverse ++ [x]) ++ [t] = es2.reverse ++ [x, t] by simp, make_list_app]
    simp

/-- C5 (witness): the amended fold statement at a concrete accumulator. -/
theorem c5_witness :
    make_list [Object.Int64 1, Object.Int64 2, Object.Empty] =
      some (.Cons (.Int64 1) (.Cons (.Int64 2) .Empty)) := by
  have h := c5_make_list_amended.1 [Object.Int64 1, Object.Int64 2] Object.Empty (by simp)
  simpa using h

/-- C6 (confirmed): the byte after `.` decides the dot: a space-class byte
commits to a dotted tail, so `(1 2 . 3)` is the improper list
`Pair(1, Pair(2, 3))`; any other byte is pushed back together with a
literal `.` and parsed as an ordinary value, so `(1 .a)` is the proper
two-element list whose second element is the symbol `.a`. -/
theorem c6_dot_disambiguation :
    readBytes 30 [40, 49, 32, 50, 32, 46, 32, 51, 41] =
      some (.Cons (.Int64 1) (.Cons (.Int64 2) (.Int64 3)), ⟨[], []⟩) ∧
    readBytes 30 [40, 49, 32, 46, 97, 41] =
      some (.Cons (.Int64 1) (.Cons (.Symbol [46, 97]) .Empty), ⟨[], []⟩) := by
  exact ⟨by decide, by decide⟩

/-- C7 (confirmed): in the `Int` state, a byte that is a symbol char but not
a digit turns the whole accumulator into a `Symbol` accumulator extended
with that byte; in particular `1+` reads as the symbol `1+`. -/
theorem c7_int_reclassify :
    (∀ (n : Nat) (acc : List Nat) (c : Nat) (s : List Nat),
      is_symbol_char c = true → ¬(48 ≤ c ∧ c ≤ 57) →
      run (n + 1) (.Int acc) ⟨[], c :: s⟩ = run n (.Symbol (acc ++ [c])) ⟨[], s⟩) ∧
    readBytes 5 [49, 43] = some (.Symbol [49, 43], ⟨[], []⟩) := by
  refine ⟨?_, by decide⟩
  intro n acc c s h1 h2
  have f := sym_char_facts h1
  rw [run_cons, runStep_int_some, if_neg (by omega), if_neg h2, if_pos h1]

/-- C7 (witness): the reclassification step at the concrete byte `+` after
the digit `1`. -/
theorem c7_witness :
    run (4 + 1) (.Int [49]) ⟨[], [43]⟩ = run 4 (.Symbol [49, 43]) ⟨[], []⟩ :=
  c7_int_reclassify.1 4 [49] 43 [] (by decide) (by decide)

/-- C8 (confirmed): with two outstanding pushed-back bytes, every further
push fails the capacity assertion of `Input::push` — modelled as the fatal
marker `none`, never a successful result that drops a byte. -/
theorem c8_pushback_overflow (a b c : Nat) (s : List Nat) :
    Input.push ⟨[a, b], s⟩ c = none := by
  simp [Input.push]

/-- C9 (confirmed): end of stream with only space-class bytes consumed is
not an error: any input of spaces, tabs and newlines (in particular the
empty input, three spaces, and space-newline) reads cleanly as the
`EndOfInput` sentinel. -/
theorem c9_eof_clean :
    (∀ (s : List Nat) (n : Nat), (∀ c ∈ s, c = 32 ∨ c = 9 ∨ c = 10) →
      s.length < n → readBytes n s = some (.Eof, ⟨[], []⟩)) ∧
    readBytes 1 [] = some (.Eof, ⟨[], []⟩) ∧
    readBytes 4 [32, 32, 32] = some (.Eof, ⟨[], []⟩) ∧
    readBytes 3 [32, 10] = some (.Eof, ⟨[], []⟩) := by
  refine ⟨?_, by decide, by decide, by decide⟩
  intro s
  induction s with
  | nil =>
    intro n h hl
    cases n with
    | zero => omega
    | succ m =>
      unfold readBytes
      rw [run_end, runStep_none_end]
  | cons c s2 ih =>
    intro n h hl
    cases n with
    | zero => omega
    | succ m =>
      unfold readBytes
      rw [run_cons, runStep_none_some, if_pos (h c (by simp))]
      exact ih m (fun x hx => h x (by simp [hx])) (by simpa using hl)

/-- C9 (witness): the general space-input statement at a concrete tab. -/
theorem c9_witness : readBytes 2 [9] = some (.Eof, ⟨[], []⟩) :=
  c9_eof_clean.1 [9] 2 (by decide) (by decide)

/-- C10 (confirmed): a bare sign byte enters the `Int` state and, at a
delimiter or end of input, `make_int` of a sign with no digits evaluates to
zero, so `-` and `+` read as `Integer(0)` rather than symbols or errors. -/
theorem c10_bare_sign_integer :
    readBytes 5 [45] = some (.Int64 0, ⟨[], []⟩) ∧
    readBytes 5 [43] = some (.Int64 0, ⟨[], []⟩) ∧
    readBytes 5 [45, 32] = some (.Int64 0, ⟨[32], []⟩) ∧
    readBytes 5 [43, 41] = some (.Int64 0, ⟨[41], []⟩) ∧
    readBytes 8 [40, 45, 41] = some (.Cons (.Int64 0) .Empty, ⟨[], []⟩) := by
  refine ⟨by decide, by decide, by decide, by decide, by decide⟩

theorem natToDigitsAux_zero (f : Nat) : natToDigitsAux f 0 = [] := by
  cases f <;> rfl

theorem digitsVal_append (l : List Nat) (d : Nat) :
    digitsVal (l ++ [d]) = digitsVal l * 10 + (d - 48) := by
  unfold digitsVal
  rw [List.foldl_append]
  rfl

theorem natToDigitsAux_spec :
    ∀ (f m : Nat), 0 < m → m < 10 ^ f →
      (∀ c ∈ natToDigitsAux f m, 48 ≤ c ∧ c ≤ 57) ∧ natToDigitsAux f m ≠ [] ∧
      digitsVal (natToDigitsAux f m).reverse = m := by
  intro f
  induction f with
  | zero =>
    intro m h1 h2
    simp at h2
    omega
  | succ f ih =>
    intro m h1 h2
    have hm : natToDigitsAux (f + 1) m = (m % 10 + 48) :: natToDigitsAux f (m / 10) := by
      cases m with
      | zero => omega
      | succ k => rfl
    by_cases hq : m / 10 = 0
    · rw [hm, hq, natToDigitsAux_zero]
      refine ⟨?_, by simp, ?_⟩
      · intro c hc
        simp at hc
        omega
      · simp [digitsVal]
        omega
    · have hp : (10 : Nat) ^ (f + 1) = 10 ^ f * 10 := pow_succ 10 f
      obtain ⟨ha, hb, hc⟩ := ih (m / 10) (Nat.pos_of_ne_zero hq) (by omega)
      refine ⟨?_, by rw [hm]; simp, ?_⟩
      · intro c hcm
        rw [hm] at hcm
        simp only [List.mem_cons] at hcm
        rcases hcm with rfl | hcm
        · omega
        · exact ha c hcm
      · rw [hm, List.reverse_cons, digitsVal_append, hc]
        omega

theorem natToBytes_spec (m : Nat) :
    (∀ c ∈ natToBytes m, 48 ≤ c ∧ c ≤ 57) ∧ natToBytes m ≠ [] ∧
      digitsVal (natToBytes m) = m := by
  by_cases h : m = 0
  · subst h
    refine ⟨?_, by simp [natToBytes], by simp [natToBytes, digitsVal]⟩
    intro c hc
    simp [natToBytes] at hc
    omega
  · unfold natToBytes
    rw [if_neg h]
    obtain ⟨ha, hb, hc⟩ :=
      natToDigitsAux_spec m m (Nat.pos_of_ne_zero h) (Nat.lt_pow_self (by norm_num) m)
    refine ⟨fun c hcm => ha c (by simpa using hcm), by simpa using hb, by simpa using hc⟩

theorem pfold_nonneg_le :
    ∀ (l : List Nat) (a : Int), (∀ c ∈ l, 48 ≤ c) → 0 ≤ a →
      a ≤ pfold l a ∧ 0 ≤ pfold l a := by
  intro l
  induction l with
  | nil =>
    intro a _ ha
    exact ⟨le_refl a, ha⟩
  | cons d l2 ih =>
    intro a h ha
    have hd : (48 : Int) ≤ (d : Int) := by exact_mod_cast h d (by simp)
    have h1 : 0 ≤ a * 10 + ((d : Int) - 48) := by nlinarith
    have hstep : a ≤ a * 10 + ((d : Int) - 48) := by nlinarith
    obtain ⟨x, y⟩ := ih (a * 10 + ((d : Int) - 48)) (fun c hc => h c (by simp [hc])) h1
    have he : pfold (d :: l2) a = pfold l2 (a * 10 + ((d : Int) - 48)) := rfl
    rw [he]
    exact ⟨le_trans hstep x, y⟩

theorem wfoldInt_eq_pfold :
    ∀ (l : List Nat) (a : Int), (∀ c ∈ l, 48 ≤ c ∧ c ≤ 57) → 0 ≤ a →
      pfold l a < 2 ^ 63 → wfoldInt l a = pfold l a := by
  intro l
  induction l with
  | nil =>
    intro a _ _ _
    rfl
  | cons d l2 ih =>
    intro a h ha hlt
    have hd := h d (by simp)
    have hd48 : (48 : Int) ≤ (d : Int) ∧ (d : Int) ≤ 57 :=
      ⟨by exact_mod_cast hd.1, by exact_mod_cast hd.2⟩
    have hdle : (48 : Int) ≤ (d : Int) := by exact_mod_cast hd.1
    have hb0 : 0 ≤ a * 10 + ((d : Int) - 48) := by nlinarith
    have hpe : pfold (d :: l2) a = pfold l2 (a * 10 + ((d : Int) - 48)) := rfl
    have hble : a * 10 + ((d : Int) - 48) ≤ pfold l2 (a * 10 + ((d : Int) - 48)) :=
      (pfold_nonneg_le l2 _ (fun c hc => (h c (by simp [hc])).1) hb0).1
    have hblt : a * 10 + ((d : Int) - 48) < 2 ^ 63 := by
      rw [hpe] at hlt
      linarith
    have ha10 : 0 ≤ a * 10 := by linarith
    have ha10lt : a * 10 < 2 ^ 63 := by linarith
    have hw1 : wrap64 (a * 10) = a * 10 := wrap64_id (by linarith) ha10lt
    have hwe : wfoldInt (d :: l2) a =
        wfoldInt l2 (wrap64 (wrap64 (a * 10) + ((d : Int) - 48))) := rfl
    rw [hwe, hw1, wrap64_id (by linarith) hblt, hpe]
    exact ih _ (fun c hc => h c (by simp [hc])) hb0 (by rw [hpe] at hlt; exact hlt)

theorem pfold_cast :
    ∀ (l : List Nat) (a : Nat), (∀ c ∈ l, 48 ≤ c) →
      pfold l (a : Int) = ((l.foldl (fun x c => x * 10 + (c - 48)) a : Nat) : Int) := by
  intro l
  induction l with
  | nil =>
    intro a _
    rfl
  | cons d l2 ih =>
    intro a h
    have hd := h d (by simp)
    have he : pfold (d :: l2) (a : Int) = pfold l2 ((a : Int) * 10 + ((d : Int) - 48)) := rfl
    have hcast : (a : Int) * 10 + ((d : Int) - 48) = ((a * 10 + (d - 48) : Nat) : Int) := by
      push_cast [hd]
      ring
    rw [he, hcast, ih (a * 10 + (d - 48)) (fun c hc => h c (by simp [hc]))]
    rfl

theorem pfold_digitsVal (l : List Nat) (h : ∀ c ∈ l, 48 ≤ c) :
    pfold l 0 = ((digitsVal l : Nat) : Int) := by
  have := pfold_cast l 0 h
  simpa [digitsVal] using this

theorem make_int_neg_eq (l : List Nat) :
    make_int (45 :: l) = some (.Int64 (wrap64 (-(wfoldInt l 0)))) := by
  simp [make_int, wfoldInt]

theorem make_int_digits_eq (c : Nat) (r : List Nat) (h : 48 ≤ c ∧ c ≤ 57) :
    make_int (c :: r) = some (.Int64 (wfoldInt (c :: r) 0)) := by
  simp only [make_int, List.tail_cons]
  rw [if_neg (by omega : ¬(c = 45 ∨ c = 43)), if_neg (by omega : ¬c = 45)]
  rfl

set_option maxRecDepth 20000 in
theorem make_int_intToBytes (i : Int) (h1 : -(2 ^ 63) ≤ i) (h2 : i < 2 ^ 63) :
    make_int (intToBytes i) = some (.Int64 i) := by
  by_cases hneg : i < 0
  · by_cases hmin : i = -(2 ^ 63)
    · subst hmin
      decide
    · have hm : (i.natAbs : Int) = -i := by omega
      unfold intToBytes
      rw [if_pos hneg]
      obtain ⟨ha, hb, hc⟩ := natToBytes_spec i.natAbs
      rw [make_int_neg_eq]
      rw [wfoldInt_eq_pfold _ 0 ha (le_refl 0) (by
        rw [pfold_digitsVal _ fun c hcc => (ha c hcc).1, hc]
        omega)]
      rw [pfold_digitsVal _ fun c hcc => (ha c hcc).1, hc]
      rw [show -((i.natAbs : Int)) = i by omega]
      rw [wrap64_id h1 h2]
  · unfold intToBytes
    rw [if_neg hneg]
    obtain ⟨ha, hb, hc⟩ := natToBytes_spec i.toNat
    have htn : ((i.toNat : Nat) : Int) = i := by omega
    cases hl : natToBytes i.toNat with
    | nil => exact absurd hl hb
    | cons c0 r0 =>
      rw [make_int_digits_eq c0 r0 (ha c0 (by rw [hl]; simp))]
      rw [wfoldInt_eq_pfold _ 0 (fun c hcc => ha c (by rw [hl]; exact hcc))
        (le_refl 0) (by
          rw [pfold_digitsVal _ fun c hcc => (ha c (by rw [hl]; exact hcc)).1]
          rw [← hl, hc]
          omega)]
      rw [pfold_digitsVal _ fun c hcc => (ha c (by rw [hl]; exact hcc)).1]
      rw [← hl, hc, htn]

theorem wfoldInt_range (l : List Nat) :
    ∀ a : Int, -(2 ^ 63) ≤ a → a < 2 ^ 63 →
      -(2 ^ 63) ≤ wfoldInt l a ∧ wfoldInt l a < 2 ^ 63 := by
  induction l with
  | nil => exact fun a h1 h2 => ⟨h1, h2⟩
  | cons d l2 ih =>
    intro a h1 h2
    have he : wfoldInt (d :: l2) a =
        wfoldInt l2 (wrap64 (wrap64 (a * 10) + ((d : Int) - 48))) := rfl
    rw [he]
    exact ih _ (wrap64_range _).1 (wrap64_range _).2

theorem make_int_wf (v : List Nat) (r : Object) (h : make_int v = some r) : WF r := by
  cases v with
  | nil => exact Option.noConfusion h
  | cons c rest =>
    simp only [make_int] at h
    have hr : r = .Int64 (if c = 45 then
        wrap64 (-(wfoldInt (if c = 45 ∨ c = 43 then (c :: rest).tail else c :: rest) 0))
      else wfoldInt (if c = 45 ∨ c = 43 then (c :: rest).tail else c :: rest) 0) :=
      (Option.some.inj h).symm
    obtain ⟨hf1, hf2⟩ :=
      wfoldInt_range (if c = 45 ∨ c = 43 then (c :: rest).tail else c :: rest) 0
        (by norm_num) (by norm_num)
    rw [hr]
    by_cases hc : c = 45
    · rw [if_pos hc]
      exact WF.int _ (wrap64_range _).1 (wrap64_range _).2
    · rw [if_neg hc]
      exact WF.int _ hf1 hf2

theorem foldl_cons_wf (rest : List Object) :
    ∀ acc : Object, (∀ x ∈ rest, WF x) → WF acc →
      WF (rest.foldl (fun prev e2 => Object.Cons e2 prev) acc) := by
  induction rest with
  | nil => exact fun acc _ h => h
  | cons e r ih =>
    intro acc h hacc
    simp only [List.foldl_cons]
    exact ih _ (fun x hx => h x (by simp [hx])) (WF.cons _ _ (h e (by simp)) hacc)

theorem make_list_wf (l : List Object) (h : ∀ x ∈ l, WF x) (r : Object)
    (he : make_list l = some r) : WF r := by
  unfold make_list at he
  cases hr : l.reverse with
  | nil => rw [hr] at he; exact Option.noConfusion he
  | cons last r2 =>
    have hmem : ∀ x ∈ last :: r2, WF x := by
      intro x hx
      exact h x (by rw [← List.mem_reverse, hr]; exact hx)
    cases r2 with
    | nil =>
      rw [hr] at he
      obtain rfl := (Option.some.inj he).symm
      exact WF.empty
    | cons e rest =>
      rw [hr] at he
      obtain rfl := (Option.some.inj he).symm
      exact foldl_cons_wf rest _ (fun x hx => hmem x (by simp [hx]))
        (WF.cons _ _ (hmem e (by simp)) (hmem last (by simp)))

theorem make_list_quote_eq (q : Object) :
    make_list [.Symbol quoteBytes, q, .Empty] =
      some (.Cons (.Symbol quoteBytes) (.Cons q .Empty)) := rfl

theorem make_symbol_wf (v : List Nat) (r : Object) (hacc : SymAcc v)
    (h : make_symbol v = some r) : WF r := by
  unfold make_symbol at h
  by_cases h46 : v = [46]
  · rw [if_pos h46] at h
    exact Option.noConfusion h
  · rw [if_neg h46] at h
    by_cases hu : utf8Valid v = true
    · rw [if_pos hu] at h
      obtain rfl := (Option.some.inj h).symm
      exact WF.symbol v ⟨hacc.1, hacc.2.1, h46, hacc.2.2⟩
    · rw [if_neg hu] at h
      exact Option.noConfusion h

theorem make_string_some (v : List Nat) (r : Object) (h : make_string v = some r) :
    r = .String v ∧ utf8Valid v = true := by
  unfold make_string at h
  by_cases hu : utf8Valid v = true
  · rw [if_pos hu] at h
    exact ⟨(Option.some.inj h).symm, hu⟩
  · rw [if_neg hu] at h
    exact Option.noConfusion h

theorem run_wf :
    ∀ (n : Nat) (st : ParseState) (inp : Input) (v : Object) (i2 : Input),
      run n st inp = some (v, i2) → StWF st → WF v := by
  intro n
  induction n with
  | zero =>
    intro st inp v i2 h _
    rw [show run 0 st inp = none from rfl] at h
    exact Option.noConfusion h
  | succ n ih =>
    intro st inp v i2 h hst
    rw [run_succ] at h
    rcases hg : Input.get inp with ⟨co, i⟩
    simp only [hg] at h
    cases st with
    | None =>
      cases co with
      | none =>
        rw [runStep_none_end] at h
        simp only [Option.some.injEq, Prod.mk.injEq] at h
        obtain ⟨h1, h2⟩ := h
        subst h1
        exact WF.eof
      | some c =>
        rw [runStep_none_some] at h
        split_ifs at h with h1 h2 h3 h4 h5 h6 h7
        · exact ih _ _ _ _ h trivial
        · exact ih _ _ _ _ h (by intro x hx; simp at hx)
        · exact ih _ _ _ _ h (by intro x hx; simp at hx)
        · cases hq : run n .None i with
          | none =>
            simp only [hq] at h
            exact Option.noConfusion h
          | some p =>
            obtain ⟨q, iq⟩ := p
            simp only [hq, make_list_quote_eq, Option.map_some', Option.some.injEq,
              Prod.mk.injEq] at h
            obtain ⟨h8, h9⟩ := h
            subst h8
            exact WF.cons _ _ (WF.symbol _ ⟨by decide, by decide, by decide,
              fun hcond => absurd hcond (by decide)⟩)
              (WF.cons _ _ (ih _ _ _ _ hq trivial) WF.empty)
        · exact ih _ _ _ _ h ⟨by simp, by simpa using h6, by simp⟩
        · refine ih _ _ _ _ h ⟨by simp, ?_, ?_⟩
          · intro x hx
            simp only [List.mem_singleton] at hx
            subst hx
            exact h7
          · intro hcond
            exact absurd (by simpa using hcond) h6
    | List v0 =>
      cases co with
      | none =>
        rw [runStep_list_end] at h
        exact Option.noConfusion h
      | some c =>
        rw [runStep_list_some] at h
        split_ifs at h with h1 h2 h3
        · exact ih _ _ _ _ h hst
        · cases hm : make_list (v0 ++ [.Empty]) with
          | none =>
            simp only [hm, Option.map_none'] at h
            exact Option.noConfusion h
          | some r =>
            simp only [hm, Option.map_some', Option.some.injEq, Prod.mk.injEq] at h
            obtain ⟨h4, h5⟩ := h
            subst h4
            refine make_list_wf _ ?_ r hm
            intro x hx
            rcases List.mem_append.1 hx with hx | hx
            · exact hst x hx
            · simp only [List.mem_singleton] at hx
              subst hx
              exact WF.empty
        · exact ih _ _ _ _ h hst
        · cases hp : Input.push i c with
          | none =>
            simp only [hp] at h
            exact Option.noConfusion h
          | some ip =>
            simp only [hp] at h
            cases he : run n .None ip with
            | none =>
            simp only [he] at h
            exact Option.noConfusion h
            | some p =>
              obtain ⟨e, ie⟩ := p
              simp only [he] at h
              refine ih _ _ _ _ h ?_
              intro x hx
              rcases List.mem_append.1 hx with hx | hx
              · exact hst x hx
              · simp only [List.mem_singleton] at hx
                subst hx
                exact ih _ _ _ _ he trivial
    | MaybeDot v0 =>
      cases co with
      | none =>
        rw [runStep_dot_end] at h
        exact Option.noConfusion h
      | some c =>
        rw [runStep_dot_some] at h
        split_ifs at h with h1 h2
        · cases he : run n .None i with
          | none =>
            simp only [he] at h
            exact Option.noConfusion h
          | some p =>
            obtain ⟨e, ie⟩ := p
            simp only [he] at h
            refine ih _ _ _ _ h ?_
            intro x hx
            rcases List.mem_append.1 hx with hx | hx
            · exact hst x hx
            · simp only [List.mem_singleton] at hx
              subst hx
              exact ih _ _ _ _ he trivial
        · cases hp1 : Input.push i c with
          | none =>
            simp only [hp1] at h
            exact Option.noConfusion h
          | some ip1 =>
            simp only [hp1] at h
            cases hp2 : Input.push ip1 46 with
            | none =>
            simp only [hp2] at h
            exact Option.noConfusion h
            | some ip2 =>
              simp only [hp2] at h
              cases he : run n .None ip2 with
              | none =>
            simp only [he] at h
            exact Option.noConfusion h
              | some p =>
                obtain ⟨e, ie⟩ := p
                simp only [he] at h
                refine ih _ _ _ _ h ?_
                intro x hx
                rcases List.mem_append.1 hx with hx | hx
                · exact hst x hx
                · simp only [List.mem_singleton] at hx
                  subst hx
                  exact ih _ _ _ _ he trivial
    | ListEnd v0 =>
      cases co with
      | none =>
        rw [runStep_listend_end] at h
        exact Option.noConfusion h
      | some c =>
        rw [runStep_listend_some] at h
        split_ifs at h with h1 h2
        · exact ih _ _ _ _ h hst
        · cases hm : make_list v0 with
          | none =>
            simp only [hm, Option.map_none'] at h
            exact Option.noConfusion h
          | some r =>
            simp only [hm, Option.map_some', Option.some.injEq, Prod.mk.injEq] at h
            obtain ⟨h4, h5⟩ := h
            subst h4
            exact make_list_wf _ hst r hm
    | Int v0 =>
      cases co with
      | none =>
        rw [runStep_int_end] at h
        cases hm : make_int v0 with
        | none =>
            simp only [hm, Option.map_none'] at h
            exact Option.noConfusion h
        | some r =>
          simp only [hm, Option.map_some', Option.some.injEq, Prod.mk.injEq] at h
          obtain ⟨h4, h5⟩ := h
          subst h4
          exact make_int_wf _ r hm
      | some c =>
        rw [runStep_int_some] at h
        split_ifs at h with h1 h2 h3
        · cases hp : Input.push i c with
          | none =>
            simp only [hp] at h
            exact Option.noConfusion h
          | some ip =>
            simp only [hp] at h
            cases hm : make_int v0 with
            | none =>
            simp only [hm, Option.map_none'] at h
            exact Option.noConfusion h
            | some r =>
              simp only [hm, Option.map_some', Option.some.injEq, Prod.mk.injEq] at h
              obtain ⟨h4, h5⟩ := h
              subst h4
              exact make_int_wf _ r hm
        · obtain ⟨hne, hhd, htl⟩ := hst
          cases v0 with
          | nil => exact absurd rfl hne
          | cons a t =>
            refine ih _ _ _ _ h ⟨by simp, by simpa using hhd, ?_⟩
            intro x hx
            simp only [List.cons_append, List.tail_cons, List.mem_append,
              List.mem_singleton] at hx
            rcases hx with hx | hx
            · exact htl x (by simpa using hx)
            · subst hx
              exact h2
        · obtain ⟨hne, hhd, htl⟩ := hst
          cases v0 with
          | nil => exact absurd rfl hne
          | cons a t =>
            refine ih _ _ _ _ h ⟨by simp, ?_, ?_⟩
            · intro x hx
              simp only [List.cons_append, List.mem_cons, List.mem_append,
                List.mem_singleton] at hx
              rcases hx with hx | hx | hx
              · subst hx
                rcases (by simpa using hhd : (48 ≤ x ∧ x ≤ 57) ∨ x = 45 ∨ x = 43) with
                  hd | hd
                · exact digit_sym_char hd
                · exact sign_sym_char hd
              · exact digit_sym_char (htl x (by simpa using hx))
              · rcases hx with rfl | hx
                · exact h3
                · simp at hx
            · intro hcond
              refine ⟨c, ?_, h2⟩
              simp
    | Symbol v0 =>
      cases co with
      | none =>
        rw [runStep_sym_end] at h
        cases hm : make_symbol v0 with
        | none =>
            simp only [hm, Option.map_none'] at h
            exact Option.noConfusion h
        | some r =>
          simp only [hm, Option.map_some', Option.some.injEq, Prod.mk.injEq] at h
          obtain ⟨h4, h5⟩ := h
          subst h4
          exact make_symbol_wf _ r hst hm
      | some c =>
        rw [runStep_sym_some] at h
        split_ifs at h with h1 h2
        · cases hp : Input.push i c with
          | none =>
            simp only [hp] at h
            exact Option.noConfusion h
          | some ip =>
            simp only [hp] at h
            cases hm : make_symbol v0 with
            | none =>
            simp only [hm, Option.map_none'] at h
            exact Option.noConfusion h
            | some r =>
              simp only [hm, Option.map_some', Option.some.injEq, Prod.mk.injEq] at h
              obtain ⟨h4, h5⟩ := h
              subst h4
              exact make_symbol_wf _ r hst hm
        · obtain ⟨hne, hall, hex⟩ := hst
          cases v0 with
          | nil => exact absurd rfl hne
          | cons a t =>
            refine ih _ _ _ _ h ⟨by simp, ?_, ?_⟩
            · intro x hx
              simp only [List.cons_append, List.mem_cons, List.mem_append,
                List.mem_singleton] at hx
              rcases hx with hx | hx | hx
              · subst hx
                exact hall x (by simp)
              · exact hall x (by simp [hx])
              · rcases hx with rfl | hx
                · exact h2
                · simp at hx
            · intro hcond
              obtain ⟨x, hx1, hx2⟩ := hex (by simpa using hcond)
              exact ⟨x, by
                simp only [List.cons_append, List.tail_cons, List.mem_append]
                exact Or.inl (by simpa using hx1), hx2⟩
    | String v0 =>
      cases co with
      | none =>
        rw [runStep_string_end] at h
        exact Option.noConfusion h
      | some c =>
        rw [runStep_string_some] at h
        split_ifs at h with h1 h2
        · cases hm : make_string v0 with
          | none =>
            simp only [hm, Option.map_none'] at h
            exact Option.noConfusion h
          | some r =>
            simp only [hm, Option.map_some', Option.some.injEq, Prod.mk.injEq] at h
            obtain ⟨h4, h5⟩ := h
            subst h4
            obtain ⟨hr, hu⟩ := make_string_some _ r hm
            rw [hr]
            exact WF.string _ hst hu
        · exact ih _ _ _ _ h hst
        · refine ih _ _ _ _ h ?_
          intro x hx
          rcases List.mem_append.1 hx with hx | hx
          · exact hst x hx
          · simp only [List.mem_singleton] at hx
            subst hx
            exact ⟨h1, h2⟩

theorem run_sym_tok :
    ∀ (rest acc s : List Nat) (n : Nat), (∀ c ∈ rest, is_symbol_char c = true) →
      tailOK s → rest.length < n →
      run n (.Symbol acc) ⟨[], rest ++ s⟩ =
        (make_symbol (acc ++ rest)).map (fun r => (r, atomRem s)) := by
  intro rest
  induction rest with
  | nil =>
    intro acc s n _ hs hn
    obtain ⟨m, rfl⟩ : ∃ m, n = m + 1 := ⟨n - 1, by omega⟩
    rw [List.nil_append, List.append_nil]
    cases s with
    | nil =>
      rw [run_end, runStep_sym_end]
      rfl
    | cons d s2 =>
      have hd : d = 32 ∨ d = 41 := hs
      rw [run_cons, runStep_sym_some, if_pos (by omega)]
      simp only [show Input.push ⟨[], s2⟩ d = some ⟨[d], s2⟩ from rfl]
      rfl
  | cons b rest2 ih =>
    intro acc s n hall hs hn
    obtain ⟨m, rfl⟩ : ∃ m, n = m + 1 := ⟨n - 1, by omega⟩
    have hb := hall b (by simp)
    have f := sym_char_facts hb
    rw [show (b :: rest2) ++ s = b :: (rest2 ++ s) from rfl, run_cons, runStep_sym_some,
      if_neg (by omega), if_pos hb]
    rw [show acc ++ b :: rest2 = (acc ++ [b]) ++ rest2 by simp]
    exact ih (acc ++ [b]) s m (fun c hc => hall c (by simp [hc])) hs (by simpa using hn)

theorem allDigits_sub {rest2 : List Nat} {b : Nat} (h : allDigits (b :: rest2) = true) :
    (48 ≤ b ∧ b ≤ 57) ∧ allDigits rest2 = true := by
  simp only [allDigits, List.all_cons, Bool.and_eq_true, decide_eq_true_eq] at h ⊢
  exact ⟨h.1, h.2⟩

theorem allDigits_cons_digit {rest2 : List Nat} {b : Nat} (h : 48 ≤ b ∧ b ≤ 57) :
    allDigits (b :: rest2) = allDigits rest2 := by
  simp only [allDigits, List.all_cons, Bool.and_eq_true, decide_eq_true_eq]
  simp [h.1, h.2]

theorem allDigits_cons_nondigit {rest2 : List Nat} {b : Nat} (h : ¬(48 ≤ b ∧ b ≤ 57)) :
    allDigits (b :: rest2) = false := by
  simp only [allDigits, List.all_cons]
  simp only [show ((48 ≤ b && b ≤ 57) : Bool) = false from by
    simp only [Bool.and_eq_false_iff, decide_eq_false_iff_not]
    omega]
  simp

theorem run_int_tok :
    ∀ (rest acc s : List Nat) (n : Nat), (∀ c ∈ rest, is_symbol_char c = true) →
      tailOK s → rest.length < n →
      run n (.Int acc) ⟨[], rest ++ s⟩ =
        (if allDigits rest = true then make_int (acc ++ rest)
         else make_symbol (acc ++ rest)).map (fun r => (r, atomRem s)) := by
  intro rest
  induction rest with
  | nil =>
    intro acc s n _ hs hn
    obtain ⟨m, rfl⟩ : ∃ m, n = m + 1 := ⟨n - 1, by omega⟩
    rw [List.nil_append, List.append_nil, if_pos (show allDigits [] = true from rfl)]
    cases s with
    | nil =>
      rw [run_end, runStep_int_end]
      rfl
    | cons d s2 =>
      have hd : d = 32 ∨ d = 41 := hs
      rw [run_cons, runStep_int_some, if_pos (by omega)]
      simp only [show Input.push ⟨[], s2⟩ d = some ⟨[d], s2⟩ from rfl]
      rfl
  | cons b rest2 ih =>
    intro acc s n hall hs hn
    obtain ⟨m, rfl⟩ : ∃ m, n = m + 1 := ⟨n - 1, by omega⟩
    have hb := hall b (by simp)
    have f := sym_char_facts hb
    by_cases hd : 48 ≤ b ∧ b ≤ 57
    · rw [show (b :: rest2) ++ s = b :: (rest2 ++ s) from rfl, run_cons, runStep_int_some,
        if_neg (by omega), if_pos hd]
      rw [ih (acc ++ [b]) s m (fun c hc => hall c (by simp [hc])) hs (by simpa using hn)]
      rw [allDigits_cons_digit hd, show (acc ++ [b]) ++ rest2 = acc ++ b :: rest2 by simp]
    · rw [show (b :: rest2) ++ s = b :: (rest2 ++ s) from rfl, run_cons, runStep_int_some,
        if_neg (by omega), if_neg hd, if_pos hb]
      rw [run_sym_tok rest2 (acc ++ [b]) s m (fun c hc => hall c (by simp [hc])) hs
        (by simpa using hn)]
      rw [allDigits_cons_nondigit hd, show (acc ++ [b]) ++ rest2 = acc ++ b :: rest2 by simp]
      simp

theorem run_string_tok :
    ∀ (rest acc s : List Nat) (n : Nat), (∀ c ∈ rest, c ≠ 34 ∧ c ≠ 92) →
      rest.length < n →
      run n (.String acc) ⟨[], rest ++ (34 :: s)⟩ =
        (make_string (acc ++ rest)).map (fun r => (r, (⟨[], s⟩ : Input))) := by
  intro rest
  induction rest with
  | nil =>
    intro acc s n _ hn
    obtain ⟨m, rfl⟩ : ∃ m, n = m + 1 := ⟨n - 1, by omega⟩
    rw [List.nil_append, List.append_nil, run_string_close]
  | cons b rest2 ih =>
    intro acc s n hall hn
    obtain ⟨m, rfl⟩ : ∃ m, n = m + 1 := ⟨n - 1, by omega⟩
    have hb := hall b (by simp)
    rw [show (b :: rest2) ++ (34 :: s) = b :: (rest2 ++ (34 :: s)) from rfl,
      run_string_append m acc _ hb.1 hb.2]
    rw [show acc ++ b :: rest2 = (acc ++ [b]) ++ rest2 by simp]
    exact ih (acc ++ [b]) s m (fun c hc => hall c (by simp [hc])) (by simpa using hn)

theorem runStep_none_40 (n : Nat) (i : Input) :
    runStep n .None (some 40) i = run n (.List []) i := by
  rw [runStep_none_some, if_neg (by norm_num), if_pos rfl]

theorem runStep_none_34 (n : Nat) (i : Input) :
    runStep n .None (some 34) i = run n (.String []) i := by
  rw [runStep_none_some, if_neg (by norm_num), if_neg (by norm_num), if_pos rfl]

theorem runStep_none_46 (n : Nat) (i : Input) :
    runStep n .None (some 46) i = run n (.Symbol [46]) i := by
  rw [runStep_none_some, if_neg (by norm_num), if_neg (by norm_num), if_neg (by norm_num),
    if_neg (by norm_num), if_neg (by norm_num), if_neg (by norm_num), if_pos (by decide)]

theorem make_list_pair (x y : Object) : make_list [x, y] = some (.Cons x y) := rfl

theorem chainToList_ne_nil (d : Object) : chainToList d ≠ [] := by
  cases d <;> simp [chainToList]

theorem make_list_chain :
    ∀ (d : Object), chainEnd d = .Empty → ∀ a : Object,
      make_list (a :: chainToList d) = some (.Cons a d) := by
  intro d
  induction d with
  | Cons b d2 ihb ihd2 =>
    intro hch a
    rw [show chainToList (.Cons b d2) = b :: chainToList d2 from rfl]
    rw [make_list_cons_ge2 a (b :: chainToList d2) (by
      have := chainToList_ne_nil d2
      cases hcl : chainToList d2 with
      | nil => exact absurd hcl this
      | cons z zs => simp)]
    rw [ihd2 (by simpa [chainEnd] using hch) b]
    rfl
  | Empty => intro _ a; rfl
  | Symbol s => intro hch; exact absurd hch (by simp [chainEnd])
  | Int64 i => intro hch; exact absurd hch (by simp [chainEnd])
  | String s => intro hch; exact absurd hch (by simp [chainEnd])
  | Eof => intro hch; exact absurd hch (by simp [chainEnd])

theorem allDigits_natToBytes (m : Nat) : allDigits (natToBytes m) = true := by
  simp only [allDigits, List.all_eq_true, Bool.and_eq_true, decide_eq_true_eq]
  exact fun c hc => ⟨((natToBytes_spec m).1 c hc).1, ((natToBytes_spec m).1 c hc).2⟩

theorem run_list_elem (x : Object) (hgx : goodVal x = true) (hwfx : WF x)
    (Hx : ∃ N, ∀ (n : Nat) (s : List Nat), N ≤ n → valTailOK x s →
      run n .None ⟨[], print x ++ s⟩ = some (x, valRem x s)) :
    ∃ N2, ∀ (acc : List Object) (c : Nat) (s2 : List Nat) (M : Nat)
      (r : Option (Object × Input)),
      (c = 32 ∨ c = 41) →
      (∀ m, M ≤ m → run m (.List (acc ++ [x])) ⟨[], c :: s2⟩ = r) →
      ∀ n, N2 + M ≤ n → run n (.List acc) ⟨[], print x ++ (c :: s2)⟩ = r := by
  obtain ⟨N, hN⟩ := Hx
  refine ⟨N + (print x).length + 8, ?_⟩
  intro acc c s2 M r hc hcont n hn
  have generic : ∀ (h : Nat) (t : List Nat), print x = h :: t →
      ¬(h = 10 ∨ h = 32) → ¬h = 41 → ¬h = 46 →
      run n (.List acc) ⟨[], print x ++ (c :: s2)⟩ = r := by
    intro h t hp hh1 hh2 hh3
    obtain ⟨m, rfl⟩ : ∃ m, n = m + 1 := ⟨n - 1, by omega⟩
    rw [hp, show (h :: t) ++ (c :: s2) = h :: (t ++ (c :: s2)) from rfl, run_cons,
      runStep_list_some, if_neg hh1, if_neg hh2, if_neg hh3]
    have hres : run m .None ⟨[], print x ++ (c :: s2)⟩ = some (x, valRem x (c :: s2)) :=
      hN m (c :: s2) (by omega) (fun _ => hc)
    rw [hp] at hres
    simp only [List.cons_append] at hres
    simp only [show Input.push ⟨[], t ++ (c :: s2)⟩ h = some ⟨[h], t ++ (c :: s2)⟩ from rfl,
      run_shift, hres]
    by_cases htok : isTok x = true
    · rw [show valRem x (c :: s2) = ⟨[c], s2⟩ from by simp [valRem, htok, atomRem]]
      rw [run_shift]
      exact hcont m (by omega)
    · rw [show valRem x (c :: s2) = ⟨[], c :: s2⟩ from by simp [valRem, htok]]
      exact hcont m (by omega)
  cases x with
  | Eof => simp [goodVal, noEof] at hgx
  | Empty => exact generic 40 [41] rfl (by norm_num) (by norm_num) (by norm_num)
  | Cons a d =>
    obtain ⟨t, hp⟩ : ∃ t, print (.Cons a d) = 40 :: t := ⟨_, by rw [print]⟩
    exact generic 40 t hp (by norm_num) (by norm_num) (by norm_num)
  | String b => exact generic 34 (b ++ [34]) rfl (by norm_num) (by norm_num) (by norm_num)
  | Int64 i =>
    by_cases hneg : i < 0
    · have hp : print (.Int64 i) = 45 :: natToBytes i.natAbs := by
        rw [show print (.Int64 i) = intToBytes i from rfl]
        unfold intToBytes
        rw [if_pos hneg]
      exact generic 45 _ hp (by norm_num) (by norm_num) (by norm_num)
    · have hnb := natToBytes_spec i.toNat
      cases hl : natToBytes i.toNat with
      | nil => exact absurd hl hnb.2.1
      | cons c0 r0 =>
        have hc0 : 48 ≤ c0 ∧ c0 ≤ 57 := hnb.1 c0 (by rw [hl]; simp)
        have hp : print (.Int64 i) = c0 :: r0 := by
          rw [show print (.Int64 i) = intToBytes i from rfl]
          unfold intToBytes
          rw [if_neg hneg, hl]
        exact generic c0 r0 hp (by omega) (by omega) (by omega)
  | Symbol t =>
    cases hwfx with
    | symbol _ hs =>
      obtain ⟨hne, hallc, hne46, hnum⟩ := hs
      cases t with
      | nil => exact absurd rfl hne
      | cons b t2 =>
        by_cases hb46 : b = 46
        · subst hb46
          have ht2 : t2 ≠ [] := fun hh => hne46 (by rw [hh])
          cases t2 with
          | nil => exact absurd rfl ht2
          | cons b2 t3 =>
            have hb2 := hallc b2 (by simp)
            have f2 := sym_char_facts hb2
            have hpl : (print (.Symbol (46 :: b2 :: t3))).length = t3.length + 2 := by
              rw [show print (.Symbol (46 :: b2 :: t3)) = 46 :: b2 :: t3 from rfl]
              simp
            obtain ⟨m1, rfl⟩ : ∃ m, n = m + 1 := ⟨n - 1, by omega⟩
            rw [show print (.Symbol (46 :: b2 :: t3)) = 46 :: b2 :: t3 from rfl]
            rw [show (46 :: b2 :: t3) ++ (c :: s2) = 46 :: (b2 :: (t3 ++ (c :: s2)))
              from rfl]
            rw [run_cons, runStep_list_some, if_neg (by norm_num), if_neg (by norm_num),
              if_pos rfl]
            obtain ⟨m2, rfl⟩ : ∃ m, m1 = m + 1 := ⟨m1 - 1, by omega⟩
            rw [run_cons, runStep_dot_some, if_neg (by omega)]
            simp only [show Input.push ⟨[], t3 ++ (c :: s2)⟩ b2 =
                some ⟨[b2], t3 ++ (c :: s2)⟩ from rfl,
              show Input.push ⟨[b2], t3 ++ (c :: s2)⟩ 46 =
                some ⟨[46, b2], t3 ++ (c :: s2)⟩ from rfl]
            obtain ⟨m3, rfl⟩ : ∃ m, m2 = m + 1 := ⟨m2 - 1, by omega⟩
            rw [run_buf, runStep_none_46, run_shift]
            rw [show (b2 : Nat) :: (t3 ++ (c :: s2)) = (b2 :: t3) ++ (c :: s2) from rfl]
            rw [run_sym_tok (b2 :: t3) [46] (c :: s2) m3
              (fun cc hcc => hallc cc (by simp only [List.mem_cons] at hcc ⊢; tauto))
              hc (by rw [hpl] at hn; simp; omega)]
            rw [show ([46] : List Nat) ++ (b2 :: t3) = 46 :: b2 :: t3 from rfl]
            rw [make_symbol_eq hne46 hallc]
            simp only [Option.map_some', atomRem]
            rw [run_shift]
            exact hcont (m3 + 1) (by rw [hpl] at hn; omega)
        · have hbsym := hallc b (by simp)
          have fb := sym_char_facts hbsym
          exact generic b t2 rfl (by omega) (by omega) hb46

theorem goodVal_cons {a d : Object} (h : goodVal (.Cons a d) = true) :
    goodVal a = true ∧ noEof d = true ∧ dotOK d = true ∧
      (d.isCons = false ∨ chainEnd d = .Empty) := by
  simp only [goodVal, noEof, dotOK, Bool.and_eq_true, Bool.or_eq_true,
    Bool.not_eq_true', decide_eq_true_eq] at h
  simp only [goodVal, Bool.and_eq_true]
  tauto

theorem WF_cons_inv {a d : Object} (h : WF (.Cons a d)) : WF a ∧ WF d := by
  cases h with
  | cons _ _ x y => exact ⟨x, y⟩

theorem read_print_round (v : Object) :
    (WF v → goodVal v = true →
      ∃ N, ∀ (n : Nat) (s : List Nat), N ≤ n → valTailOK v s →
        run n .None ⟨[], print v ++ s⟩ = some (v, valRem v s)) ∧
    (WF v → noEof v = true → dotOK v = true → chainEnd v = .Empty →
      ∃ N, ∀ (n : Nat) (s : List Nat) (acc : List Object), N ≤ n →
        run n (.List acc) ⟨[], printRest v ++ (41 :: s)⟩ =
          (make_list (acc ++ chainToList v)).map (fun r => (r, (⟨[], s⟩ : Input)))) := by
  induction v with
  | Empty =>
    constructor
    · intro _ _
      refine ⟨3, ?_⟩
      intro n s hn hts
      obtain ⟨m, rfl⟩ : ∃ m, n = m + 2 := ⟨n - 2, by omega⟩
      rw [show print .Empty ++ s = 40 :: (41 :: s) from rfl]
      rw [show m + 2 = (m + 1) + 1 from rfl, run_cons, runStep_none_40, run_cons,
        runStep_list_some, if_neg (by norm_num), if_pos rfl]
      rfl
    · intro _ _ _ _
      refine ⟨1, ?_⟩
      intro n s acc hn
      obtain ⟨m, rfl⟩ : ∃ m, n = m + 1 := ⟨n - 1, by omega⟩
      rw [show printRest .Empty ++ (41 :: s) = 41 :: s from rfl, run_cons,
        runStep_list_some, if_neg (by norm_num), if_pos rfl]
      rfl
  | Eof =>
    constructor
    · intro _ hg
      simp [goodVal, noEof] at hg
    · intro _ _ _ hch
      simp [chainEnd] at hch
  | Int64 i =>
    constructor
    · intro hwf _
      have hrange : -(2 ^ 63) ≤ i ∧ i < 2 ^ 63 := by
        cases hwf with
        | int _ h1 h2 => exact ⟨h1, h2⟩
      refine ⟨(print (.Int64 i)).length + 2, ?_⟩
      intro n s hn hts
      have htok : tailOK s := hts rfl
      obtain ⟨m, rfl⟩ : ∃ m, n = m + 1 := ⟨n - 1, by omega⟩
      by_cases hneg : i < 0
      · have hp : print (.Int64 i) = 45 :: natToBytes i.natAbs := by
          rw [show print (.Int64 i) = intToBytes i from rfl]
          unfold intToBytes
          rw [if_pos hneg]
        have hlen : (print (.Int64 i)).length = (natToBytes i.natAbs).length + 1 := by
          rw [hp]
          simp
        rw [hp, show (45 :: natToBytes i.natAbs) ++ s = 45 :: (natToBytes i.natAbs ++ s)
          from rfl, run_cons, runStep_none_some, if_neg (by norm_num),
          if_neg (by norm_num), if_neg (by norm_num), if_neg (by norm_num),
          if_neg (by norm_num), if_pos (by norm_num)]
        rw [run_int_tok (natToBytes i.natAbs) [45] s m
          (fun c hc => digit_sym_char ((natToBytes_spec i.natAbs).1 c hc)) htok
          (by omega)]
        rw [if_pos (allDigits_natToBytes i.natAbs)]
        rw [show ([45] : List Nat) ++ natToBytes i.natAbs = 45 :: natToBytes i.natAbs
          from rfl, ← hp, show print (.Int64 i) = intToBytes i from rfl,
          make_int_intToBytes i hrange.1 hrange.2]
        simp only [Option.map_some']
        rw [show valRem (.Int64 i) s = atomRem s from by simp [valRem, isTok]]
      · have hnb := natToBytes_spec i.toNat
        have hp : print (.Int64 i) = natToBytes i.toNat := by
          rw [show print (.Int64 i) = intToBytes i from rfl]
          unfold intToBytes
          rw [if_neg hneg]
        cases hl : natToBytes i.toNat with
        | nil => exact absurd hl hnb.2.1
        | cons c0 r0 =>
          have hc0 : 48 ≤ c0 ∧ c0 ≤ 57 := hnb.1 c0 (by rw [hl]; simp)
          have hlen : (print (.Int64 i)).length = r0.length + 1 := by
            rw [hp, hl]
            simp
          rw [hp, hl, show (c0 :: r0) ++ s = c0 :: (r0 ++ s) from rfl, run_cons,
            runStep_none_some, if_neg (by omega), if_neg (by omega), if_neg (by omega),
            if_neg (by omega), if_neg (by omega), if_pos (Or.inl hc0)]
          rw [run_int_tok r0 [c0] s m
            (fun c hc => digit_sym_char (hnb.1 c (by rw [hl]; simp [hc]))) htok
            (by omega)]
          rw [if_pos ((allDigits_sub (by rw [← hl]; exact allDigits_natToBytes i.toNat)).2)]
          rw [show ([c0] : List Nat) ++ r0 = c0 :: r0 from rfl, ← hl, ← hp,
            show print (.Int64 i) = intToBytes i from rfl,
            make_int_intToBytes i hrange.1 hrange.2]
          simp only [Option.map_some']
          rw [show valRem (.Int64 i) s = atomRem s from by simp [valRem, isTok]]
    · intro _ _ _ hch
      simp [chainEnd] at hch
  | String b =>
    constructor
    · intro hwf _
      have hinv : (∀ c ∈ b, c ≠ 34 ∧ c ≠ 92) ∧ utf8Valid b = true := by
        cases hwf with
        | string _ h1 h2 => exact ⟨h1, h2⟩
      refine ⟨b.length + 3, ?_⟩
      intro n s hn hts
      obtain ⟨m, rfl⟩ : ∃ m, n = m + 1 := ⟨n - 1, by omega⟩
      rw [show print (.String b) ++ s = 34 :: (b ++ (34 :: s)) from by
        rw [show print (.String b) = 34 :: (b ++ [34]) from rfl]
        simp]
      rw [run_cons, runStep_none_34]
      rw [run_string_tok b [] s m hinv.1 (by omega)]
      rw [List.nil_append, show make_string b = some (.String b) from by
        unfold make_string
        rw [if_pos hinv.2]]
      simp only [Option.map_some']
      rw [show valRem (.String b) s = ⟨[], s⟩ from by simp [valRem, isTok]]
    · intro _ _ _ hch
      simp [chainEnd] at hch
  | Symbol t =>
    constructor
    · intro hwf _
      have hs : symbolOK t := by
        cases hwf with
        | symbol _ h => exact h
      obtain ⟨hne, hallc, hne46, hnum⟩ := hs
      refine ⟨t.length + 2, ?_⟩
      intro n s hn hts
      have htok : tailOK s := hts rfl
      obtain ⟨m, rfl⟩ : ∃ m, n = m + 1 := ⟨n - 1, by omega⟩
      cases t with
      | nil => exact absurd rfl hne
      | cons b t2 =>
        have hb := hallc b (by simp)
        have fb := sym_char_facts hb
        have hlen : (b :: t2).length = t2.length + 1 := by simp
        rw [show print (.Symbol (b :: t2)) = b :: t2 from rfl,
          show (b :: t2) ++ s = b :: (t2 ++ s) from rfl, run_cons, runStep_none_some,
          if_neg (by omega), if_neg (by omega), if_neg (by omega), if_neg (by omega),
          if_neg (by omega)]
        by_cases hd : (48 ≤ b ∧ b ≤ 57) ∨ b = 45 ∨ b = 43
        · rw [if_pos hd]
          rw [run_int_tok t2 [b] s m (fun c hc => hallc c (by simp [hc])) htok
            (by omega)]
          have hnd : ¬ allDigits t2 = true := by
            obtain ⟨cx, hcx1, hcx2⟩ := hnum (by simpa using hd)
            simp only [allDigits, List.all_eq_true, Bool.and_eq_true, decide_eq_true_eq]
            intro hall
            exact hcx2 (hall cx (by simpa using hcx1))
          rw [if_neg hnd, show ([b] : List Nat) ++ t2 = b :: t2 from rfl,
            make_symbol_eq hne46 hallc]
          simp only [Option.map_some']
          rw [show valRem (.Symbol (b :: t2)) s = atomRem s from by simp [valRem, isTok]]
        · rw [if_neg hd, if_pos hb]
          rw [run_sym_tok t2 [b] s m (fun c hc => hallc c (by simp [hc])) htok
            (by omega)]
          rw [show ([b] : List Nat) ++ t2 = b :: t2 from rfl, make_symbol_eq hne46 hallc]
          simp only [Option.map_some']
          rw [show valRem (.Symbol (b :: t2)) s = atomRem s from by simp [valRem, isTok]]
    · intro _ _ _ hch
      simp [chainEnd] at hch
  | Cons a d iha ihd =>
    constructor
    · intro hwf hg
      obtain ⟨hwa, hwd⟩ := WF_cons_inv hwf
      obtain ⟨hga, hnd, hdd, hcnd⟩ := goodVal_cons hg
      obtain ⟨Ne, hE⟩ := run_list_elem a hga hwa (iha.1 hwa hga)
      by_cases hch : chainEnd d = .Empty
      · obtain ⟨N1, hQ⟩ := ihd.2 hwd hnd hdd hch
        refine ⟨Ne + N1 + 2, ?_⟩
        intro n s hn hts
        have hp : print (.Cons a d) ++ s =
            40 :: (print a ++ (printRest d ++ (41 :: s))) := by
          rw [print, hch]
          simp [List.append_assoc]
        rw [hp]
        obtain ⟨m, rfl⟩ : ∃ m, n = m + 1 := ⟨n - 1, by omega⟩
        rw [run_cons, runStep_none_40]
        have hgoal : run m (.List []) ⟨[], print a ++ (printRest d ++ (41 :: s))⟩ =
            (make_list ([a] ++ chainToList d)).map (fun r => (r, (⟨[], s⟩ : Input))) := by
          cases d with
          | Empty =>
            rw [show printRest Object.Empty ++ (41 :: s) = 41 :: s from rfl]
            refine hE [] 41 s N1 _ (Or.inr rfl) ?_ m (by omega)
            intro m2 hm2
            have hq := hQ m2 s ([] ++ [a]) hm2
            simpa [printRest] using hq
          | Cons b d2 =>
            rw [show printRest (.Cons b d2) ++ (41 :: s) =
              32 :: ((print b ++ printRest d2) ++ (41 :: s)) from by
                rw [printRest]
                simp]
            refine hE [] 32 ((print b ++ printRest d2) ++ (41 :: s)) N1 _ (Or.inl rfl)
              ?_ m (by omega)
            intro m2 hm2
            have hq := hQ m2 s ([] ++ [a]) hm2
            rw [show printRest (.Cons b d2) ++ (41 :: s) =
              32 :: ((print b ++ printRest d2) ++ (41 :: s)) from by
                rw [printRest]
                simp] at hq
            simpa using hq
          | Symbol sx => exact absurd hch (by simp [chainEnd])
          | Int64 ix => exact absurd hch (by simp [chainEnd])
          | String sx => exact absurd hch (by simp [chainEnd])
          | Eof => exact absurd hch (by simp [chainEnd])
        rw [hgoal, show ([a] : List Object) ++ chainToList d = a :: chainToList d from rfl,
          make_list_chain d hch a]
        simp only [Option.map_some']
        rw [show valRem (.Cons a d) s = ⟨[], s⟩ from by simp [valRem, isTok]]
      · have hdc : d.isCons = false := by
          rcases hcnd with h | h
          · exact h
          · exact absurd h hch
        have hgd : goodVal d = true := by
          simp only [goodVal, Bool.and_eq_true]
          exact ⟨hnd, hdd⟩
        obtain ⟨Nd, hD⟩ := ihd.1 hwd hgd
        refine ⟨Ne + Nd + 8, ?_⟩
        intro n s hn hts
        have hp : print (.Cons a d) ++ s =
            40 :: (print a ++ (32 :: (46 :: (32 :: (print d ++ (41 :: s)))))) := by
          cases d with
          | Empty => exact absurd (show chainEnd Object.Empty = Object.Empty from rfl) hch
          | Cons b d2 => simp [Object.isCons] at hdc
          | Eof => simp [goodVal, noEof] at hgd
          | Symbol sx =>
            rw [print]
            simp [chainEnd, printRest, List.append_assoc]
          | Int64 ix =>
            rw [print]
            simp [chainEnd, printRest, List.append_assoc]
          | String sx =>
            rw [print]
            simp [chainEnd, printRest, List.append_assoc]
        rw [hp]
        obtain ⟨m, rfl⟩ : ∃ m, n = m + 1 := ⟨n - 1, by omega⟩
        rw [run_cons, runStep_none_40]
        refine hE [] 32 (46 :: (32 :: (print d ++ (41 :: s)))) (Nd + 5) _ (Or.inl rfl)
          ?_ m (by omega)
        intro m2 hm2
        obtain ⟨m3, rfl⟩ : ∃ q, m2 = q + 1 := ⟨m2 - 1, by omega⟩
        rw [run_cons, runStep_list_some, if_pos (Or.inr rfl)]
        obtain ⟨m4, rfl⟩ : ∃ q, m3 = q + 1 := ⟨m3 - 1, by omega⟩
        rw [run_cons, runStep_list_some, if_neg (by norm_num), if_neg (by norm_num),
          if_pos rfl]
        obtain ⟨m5, rfl⟩ : ∃ q, m4 = q + 1 := ⟨m4 - 1, by omega⟩
        rw [run_cons, runStep_dot_some, if_pos (by norm_num),
          if_neg (show ¬([] ++ [a] : List Object) = [] from by simp)]
        have hd5 : run m5 .None ⟨[], print d ++ (41 :: s)⟩ = some (d, valRem d (41 :: s)) :=
          hD m5 (41 :: s) (by omega) (fun _ => Or.inr rfl)
        simp only [hd5]
        obtain ⟨m6, rfl⟩ : ∃ q, m5 = q + 1 := ⟨m5 - 1, by omega⟩
        by_cases htd : isTok d = true
        · rw [show valRem d (41 :: s) = ⟨[41], s⟩ from by simp [valRem, htd, atomRem]]
          rw [run_buf, runStep_listend_some, if_neg (by norm_num), if_pos rfl]
          rw [show (([] ++ [a] : List Object) ++ [d]) = [a, d] from by simp,
            make_list_pair]
          simp only [Option.map_some']
          rw [show valRem (.Cons a d) s = ⟨[], s⟩ from by simp [valRem, isTok]]
        · rw [show valRem d (41 :: s) = ⟨[], 41 :: s⟩ from by simp [valRem, htd]]
          rw [run_cons, runStep_listend_some, if_neg (by norm_num), if_pos rfl]
          rw [show (([] ++ [a] : List Object) ++ [d]) = [a, d] from by simp,
            make_list_pair]
          simp only [Option.map_some']
          rw [show valRem (.Cons a d) s = ⟨[], s⟩ from by simp [valRem, isTok]]
    · intro hwf hne hdd hch
      obtain ⟨hwa, hwd⟩ := WF_cons_inv hwf
      have hne2 : noEof a = true ∧ noEof d = true := by
        simpa only [noEof, Bool.and_eq_true] using hne
      have hdd2 : (dotOK a = true ∧ dotOK d = true) ∧
          (!d.isCons || decide (chainEnd d = .Empty)) = true := by
        simpa only [dotOK, Bool.and_eq_true] using hdd
      have hga : goodVal a = true := by
        simp only [goodVal, Bool.and_eq_true]
        exact ⟨hne2.1, hdd2.1.1⟩
      have hchd : chainEnd d = .Empty := by simpa [chainEnd] using hch
      obtain ⟨N1, hQ⟩ := ihd.2 hwd hne2.2 hdd2.1.2 hchd
      obtain ⟨Ne, hE⟩ := run_list_elem a hga hwa (iha.1 hwa hga)
      refine ⟨Ne + N1 + 2, ?_⟩
      intro n s acc hn
      rw [show printRest (.Cons a d) ++ (41 :: s) =
        32 :: (print a ++ (printRest d ++ (41 :: s))) from by
          rw [printRest]
          simp]
      obtain ⟨m, rfl⟩ : ∃ m, n = m + 1 := ⟨n - 1, by omega⟩
      rw [run_cons, runStep_list_some, if_pos (Or.inr rfl)]
      have hfin : (make_list (acc ++ chainToList (.Cons a d))).map
          (fun r => (r, (⟨[], s⟩ : Input))) =
          (make_list ((acc ++ [a]) ++ chainToList d)).map
            (fun r => (r, (⟨[], s⟩ : Input))) := by
        rw [show chainToList (.Cons a d) = a :: chainToList d from rfl]
        simp
      rw [hfin]
      cases d with
      | Empty =>
        rw [show printRest Object.Empty ++ (41 :: s) = 41 :: s from rfl]
        refine hE acc 41 s N1 _ (Or.inr rfl) ?_ m (by omega)
        intro m2 hm2
        have hq := hQ m2 s (acc ++ [a]) hm2
        simpa [printRest] using hq
      | Cons b d2 =>
        rw [show printRest (.Cons b d2) ++ (41 :: s) =
          32 :: ((print b ++ printRest d2) ++ (41 :: s)) from by
            rw [printRest]
            simp]
        refine hE acc 32 ((print b ++ printRest d2) ++ (41 :: s)) N1 _ (Or.inl rfl)
          ?_ m (by omega)
        intro m2 hm2
        have hq := hQ m2 s (acc ++ [a]) hm2
        rw [show printRest (.Cons b d2) ++ (41 :: s) =
          32 :: ((print b ++ printRest d2) ++ (41 :: s)) from by
            rw [printRest]
            simp] at hq
        exact hq
      | Symbol sx => exact absurd hchd (by simp [chainEnd])
      | Int64 ix => exact absurd hchd (by simp [chainEnd])
      | String sx => exact absurd hchd (by simp [chainEnd])
      | Eof => exact absurd hchd (by simp [chainEnd])

/-- C2 (amended): print-read round trip, for the values on which the cited
printer is faithful.  For every byte stream accepted by the reader whose
value contains no `Eof` sentinel and no improper (dotted) chain of at least
two pairs — the two failure cases being a quote shorthand cut off at end of
stream, whose sentinel prints as nothing, and the `print_cons` dotted-tail
slip of C3 — printing the value and reading the printed text again yields a
structurally equal value.  The bare `Eof` value (all-space input) also
round-trips. -/
theorem c2_roundtrip_amended (n : Nat) (bytes : List Nat) (v : Object) (i2 : Input)
    (hread : readBytes n bytes = some (v, i2))
    (hgood : goodVal v = true ∨ v = .Eof) :
    ∃ (m : Nat) (j : Input), readBytes m (print v) = some (v, j) := by
  have hwf : WF v := run_wf n .None ⟨[], bytes⟩ v i2 hread trivial
  rcases hgood with hgood | rfl
  · obtain ⟨N, hN⟩ := (read_print_round v).1 hwf hgood
    refine ⟨N, valRem v [], ?_⟩
    have hr := hN N [] (le_refl N) (fun _ => trivial)
    simpa [readBytes] using hr
  · exact ⟨1, ⟨[], []⟩, by rw [show print Object.Eof = [] from rfl]; rfl⟩

/-- C2 (witness): the amended round trip applied to the concrete accepted
input `(1 2)`. -/
theorem c2_witness :
    ∃ (m : Nat) (j : Input),
      readBytes m (print (.Cons (.Int64 1) (.Cons (.Int64 2) .Empty))) =
        some (.Cons (.Int64 1) (.Cons (.Int64 2) .Empty), j) :=
  c2_roundtrip_amended 12 [40, 49, 32, 50, 41] _ ⟨[], []⟩ (by decide)
    (Or.inl (by decide))
